import Mathlib

/-!
Verification of the workspace symbol-cache subsystem of the vscode_cobol
extension (sources: `cobolworkspacecache.ts`, `opencopybook.ts`,
`vscobscanner.ts`, and the concatenated `cobscanner` worker source).

JavaScript `Map<string, V>` objects are embedded as insertion-ordered
association lists `List (String × V)`: `get` returns the first binding,
`set` replaces the first binding in place (or appends a fresh one at the
end), `delete` removes the binding, and iteration follows list order —
exactly the observable semantics of a JS Map with unique keys.

Machine numbers (`number` line numbers, `BigInt` modification times) are
embedded as `Int`; nothing in the verified code performs arithmetic on
them beyond comparisons, so no overflow modelling is required.

JS string primitives used by the sources (`toLowerCase`, `split`,
`startsWith`, `lastIndexOf`, `substr`) are embedded as structurally
recursive functions over the string's character list, so that every
definition evaluates inside the kernel.
-/

/-- JS `String.prototype.toLowerCase` (ASCII case folding suffices for the
symbol names handled by the verified code). -/
def jsToLower (s : String) : String :=
  String.mk (s.data.map Char.toLower)

/-- Split a character list at every separator character accepted by `p`
(JS `String.prototype.split` semantics: `""` yields `[""]`, separators at
the edges yield empty components). -/
def splitCharsP (p : Char → Bool) : List Char → List (List Char)
  | [] => [[]]
  | c :: cs =>
      if p c then [] :: splitCharsP p cs
      else
        match splitCharsP p cs with
        | [] => [[c]]
        | g :: gs => (c :: g) :: gs

/-- JS `str.split(",")`. -/
def jsSplitOnComma (s : String) : List String :=
  (splitCharsP (fun c => c = ',') s.data).map String.mk

/-- JS `String.prototype.startsWith`. -/
def jsStartsWith (s pre : String) : Bool :=
  List.isPrefixOf pre.data s.data

/-- `COBOLFileSymbol` from `cobolglobalcache.ts` (only the two fields the
verified code reads: the symbol's file and its line number `lnum`). -/
structure COBOLFileSymbol where
  filename : String
  lnum : Int
  deriving DecidableEq, Repr

/-- The value type of the five symbol-table mappings: a JS
`Map<string, COBOLFileSymbol[]>` as an association list. -/
abbrev SymMap := List (String × List COBOLFileSymbol)

/-- JS `Map.get`: the first binding for the key, if any. -/
def mapGet {α : Type} (m : List (String × α)) (k : String) : Option α :=
  match m with
  | [] => none
  | (k', v) :: rest => if k' = k then some v else mapGet rest k

/-- JS `Map.set`: replace the first binding in place, else append. -/
def mapSet {α : Type} (m : List (String × α)) (k : String) (v : α) :
    List (String × α) :=
  match m with
  | [] => [(k, v)]
  | (k', v') :: rest =>
      if k' = k then (k, v) :: rest else (k', v') :: mapSet rest k v

/-- The JS for-loop of `addSymbolToCache` (lines 45-58 of
`cobolworkspacecache.ts`) as explicit state passing: the state is
`(foundCount, foundLast, foundLastNonFileSymbol)`, where the JS sentinel
`-1` for `foundLastNonFileSymbol` is `none`. `i` is the loop index. -/
def scanLoop (srcfilename : String) :
    List COBOLFileSymbol → Nat → Nat × Nat × Option Nat → Nat × Nat × Option Nat
  | [], _, st => st
  | x :: xs, i, (foundCount, foundLast, foundLastNonFileSymbol) =>
      if x.filename = srcfilename then
        scanLoop srcfilename xs (i + 1)
          (foundCount + 1, i,
            if x.lnum ≠ 1 then some i else foundLastNonFileSymbol)
      else
        scanLoop srcfilename xs (i + 1)
          (foundCount, foundLast, foundLastNonFileSymbol)

/-- The in-place mutation `symbolList[i].lnum = lineNumber`. -/
def setLnum : List COBOLFileSymbol → Nat → Int → List COBOLFileSymbol
  | [], _, _ => []
  | x :: xs, 0, lineNumber => { x with lnum := lineNumber } :: xs
  | x :: xs, i + 1, lineNumber => x :: setLnum xs i lineNumber

/-- `COBOLWorkspaceSymbolCacheHelper.addSymbolToCache`
(`cobolworkspacecache.ts` lines 38-85).  The returned `Bool` is the
resulting `InMemoryGlobalSymbolCache.isDirty` flag given its prior value. -/
def addSymbolToCache (srcfilename symbolUnchanged : String) (lineNumber : Int)
    (symbolsCache : SymMap) (isDirty : Bool) : SymMap × Bool :=
  let symbol := jsToLower symbolUnchanged
  match mapGet symbolsCache symbol with
  | some symbolList =>
      match scanLoop srcfilename symbolList 0 (0, 0, none) with
      | (foundCount, foundLast, foundLastNonFileSymbol) =>
        if foundCount = 0 then
          (mapSet symbolsCache symbol
            (symbolList ++ [⟨srcfilename, lineNumber⟩]), true)
        else if foundCount = 1 then
          (mapSet symbolsCache symbol (setLnum symbolList foundLast lineNumber),
            true)
        else
          match foundLastNonFileSymbol with
          | some j =>
              (mapSet symbolsCache symbol (setLnum symbolList j lineNumber),
                true)
          | none => (symbolsCache, isDirty)
  | none =>
      (mapSet symbolsCache symbol [⟨srcfilename, lineNumber⟩], true)

/-- `COBOLWorkspaceSymbolCacheHelper.removeAllProgramSymbols`
(`cobolworkspacecache.ts` lines 16-36): every bucket is filtered to drop
entries for `srcfilename`; only when the filter actually dropped
something (`newSymbols.length !== symbolList.length`, line 27) is the
bucket replaced — deleted from the map when the filtered list is empty,
re-set otherwise; a bucket the filter left unchanged (in particular one
that was already empty) is retained as is. -/
def removeAllProgramSymbols (srcfilename : String) (symbolsCache : SymMap) :
    SymMap :=
  symbolsCache.filterMap (fun kv =>
    if (kv.2.filter (fun s => s.filename ≠ srcfilename)).length ≠
        kv.2.length then
      if (kv.2.filter (fun s => s.filename ≠ srcfilename)).length ≠ 0 then
        some (kv.1, kv.2.filter (fun s => s.filename ≠ srcfilename))
      else none
    else some kv)

/-- Modelled from the spec: `InMemoryGlobalCacheHelper.getFilenameWithoutPath`
lives in `globalcachehelper.ts`, which is not among the provided sources.
Per the spec's "short name" notion it projects a full path to its filename
portion: the substring after the final path separator. -/
def getFilenameWithoutPath (fullPath : String) : String :=
  (((splitCharsP (fun c => c = '/' ∨ c = '\\') fullPath.data).map
    String.mk).getLast?).getD fullPath

/-- Modelled from the spec: `COBOLWorkspaceFile` from `cobolglobalcache.ts`
(not among the provided sources) is the spec's SourceFileRecord
`{ filename, lastModifiedTimeMs }`. -/
structure COBOLWorkspaceFile where
  lastModifiedTime : Int
  shortFilename : String
  deriving DecidableEq, Repr

/-- `TypeCategory` from `cobolworkspacecache.ts` lines 9-13. -/
inductive TypeCategory where
  | ClassId
  | InterfaceId
  | EnumId
  deriving DecidableEq, Repr

/-- `InMemoryGlobalSymbolCache` (from `globalcachehelper.ts`, shape as used
by the verified sources and described by the spec's Global Cache data
model): five symbol mappings, the known-copybook map, the source-file
record map and the dirty flag. -/
structure GlobalSymbolCache where
  callableSymbols : SymMap
  entryPoints : SymMap
  types : SymMap
  interfaces : SymMap
  enums : SymMap
  knownCopybooks : List (String × String)
  sourceFilenameModified : List (String × COBOLWorkspaceFile)
  isDirty : Bool
  deriving DecidableEq, Repr

/-- The empty Global Symbol Cache (all maps empty, not dirty). -/
def emptyGlobalCache : GlobalSymbolCache :=
  ⟨[], [], [], [], [], [], [], false⟩

/-- `COBOLWorkspaceSymbolCacheHelper.addSymbol` (lines 87-90; the default
line number `1` is passed explicitly by callers in this embedding). -/
def addSymbol (srcfilename symbolUnchanged : String) (lineNumber : Int)
    (s : GlobalSymbolCache) : GlobalSymbolCache :=
  let r := addSymbolToCache (getFilenameWithoutPath srcfilename)
    symbolUnchanged lineNumber s.callableSymbols s.isDirty
  { s with callableSymbols := r.1, isDirty := r.2 }

/-- `COBOLWorkspaceSymbolCacheHelper.addEntryPoint` (lines 92-95). -/
def addEntryPoint (srcfilename symbolUnchanged : String) (lineNumber : Int)
    (s : GlobalSymbolCache) : GlobalSymbolCache :=
  let r := addSymbolToCache (getFilenameWithoutPath srcfilename)
    symbolUnchanged lineNumber s.entryPoints s.isDirty
  { s with entryPoints := r.1, isDirty := r.2 }

/-- `COBOLWorkspaceSymbolCacheHelper.addClass` (lines 121-132): the target
map is selected by the category. -/
def addClass (srcfilename symbolUnchanged : String) (lineNumber : Int)
    (category : TypeCategory) (s : GlobalSymbolCache) : GlobalSymbolCache :=
  match category with
  | TypeCategory.ClassId =>
      let r := addSymbolToCache (getFilenameWithoutPath srcfilename)
        symbolUnchanged lineNumber s.types s.isDirty
      { s with types := r.1, isDirty := r.2 }
  | TypeCategory.InterfaceId =>
      let r := addSymbolToCache (getFilenameWithoutPath srcfilename)
        symbolUnchanged lineNumber s.interfaces s.isDirty
      { s with interfaces := r.1, isDirty := r.2 }
  | TypeCategory.EnumId =>
      let r := addSymbolToCache (getFilenameWithoutPath srcfilename)
        symbolUnchanged lineNumber s.enums s.isDirty
      { s with enums := r.1, isDirty := r.2 }

/-- `COBOLWorkspaceSymbolCacheHelper.addReferencedCopybook` (lines 97-104). -/
def addReferencedCopybook (copybook fullInFilename : String)
    (s : GlobalSymbolCache) : GlobalSymbolCache :=
  let inFilename := getFilenameWithoutPath fullInFilename
  let encodedKey := copybook ++ "," ++ inFilename
  match mapGet s.knownCopybooks encodedKey with
  | some _ => s
  | none =>
      let m := mapSet s.knownCopybooks encodedKey copybook
      { s with knownCopybooks := m, isDirty := true }

/-- `COBOLWorkspaceSymbolCacheHelper.removeAllCopybookReferences`
(lines 106-119): drops every known-copybook key whose second
comma-separated component equals the short filename. -/
def removeAllCopybookReferences (fullInFilename : String)
    (s : GlobalSymbolCache) : GlobalSymbolCache :=
  let inFilename := getFilenameWithoutPath fullInFilename
  let m := s.knownCopybooks.filter
    (fun kv => ¬ ((jsSplitOnComma kv.1).get? 1 = some inFilename))
  { s with knownCopybooks := m }

/-- `COBOLWorkspaceSymbolCacheHelper.removeAllPrograms` (lines 134-137). -/
def removeAllPrograms (srcfilename : String) (s : GlobalSymbolCache) :
    GlobalSymbolCache :=
  let m := removeAllProgramSymbols (getFilenameWithoutPath srcfilename)
    s.callableSymbols
  { s with callableSymbols := m }

/-- `COBOLWorkspaceSymbolCacheHelper.removeAllProgramEntryPoints`
(lines 139-142). -/
def removeAllProgramEntryPoints (srcfilename : String)
    (s : GlobalSymbolCache) : GlobalSymbolCache :=
  let m := removeAllProgramSymbols (getFilenameWithoutPath srcfilename)
    s.entryPoints
  { s with entryPoints := m }

/-- `COBOLWorkspaceSymbolCacheHelper.removeAllTypes` (lines 144-151):
removes the file's symbols from `types`, then `enums`, then `interfaces`. -/
def removeAllTypes (srcfilename : String) (s : GlobalSymbolCache) :
    GlobalSymbolCache :=
  let t := removeAllProgramSymbols (getFilenameWithoutPath srcfilename) s.types
  let e := removeAllProgramSymbols (getFilenameWithoutPath srcfilename) s.enums
  let i := removeAllProgramSymbols (getFilenameWithoutPath srcfilename)
    s.interfaces
  { s with types := t, enums := e, interfaces := i }

/-- `COBOLWorkspaceSymbolCacheHelper.loadGlobalEntryCacheFromArray`
(lines 166-177).  `pi` embeds JS `Number.parseInt(·, 10)`, whose numeric
behaviour the verified claims do not depend on. -/
def loadGlobalEntryCacheFromArray (pi : String → Int) (symbols : List String)
    (clear : Bool) (s : GlobalSymbolCache) : GlobalSymbolCache :=
  let s0 := if clear then { s with callableSymbols := [] } else s
  symbols.foldl (fun st symbol =>
    let symbolValues := jsSplitOnComma symbol
    if symbolValues.length = 3 then
      addEntryPoint (symbolValues.getD 1 "") (symbolValues.getD 0 "")
        (pi (symbolValues.getD 2 "")) st
    else st) s0

/-- A quick sanity example: adding a symbol to the empty cache creates the
case-folded bucket with one FileSymbol attributed to the short filename. -/
example :
    (addSymbol "dir/a.cbl" "Alpha" 5 emptyGlobalCache).callableSymbols =
      [("alpha", [⟨"a.cbl", 5⟩])] := by decide

/-- First-some choice on options (JS `-1` sentinel flows: the second value
is kept only when the first is absent). -/
def optOr {α : Type} (a b : Option α) : Option α :=
  match a with
  | some x => some x
  | none => b

/-- The index of the last element of the list satisfying `p`, where the
head of the list carries index `i` (`none` if no element satisfies `p`). -/
def findLastIdxFrom {α : Type} (p : α → Bool) (i : Nat) : List α → Option Nat
  | [] => none
  | x :: xs =>
      optOr (findLastIdxFrom p (i + 1) xs) (if p x then some i else none)

/-- JS `str.lastIndexOf(c)` as an optional index. -/
def lastIndexOfChar (c : Char) (s : String) : Option Nat :=
  findLastIdxFrom (fun d => d = c) 0 s.data

/-- JS `str.substr(i)`: the suffix starting at character index `i`. -/
def substrFrom (s : String) (i : Nat) : String :=
  String.mk (s.data.drop i)

/-- The extension-equality for-loops of `isValidCopybookExtension` /
`isValidProgramExtension` (`opencopybook.ts` lines 22-27 and 38-43). -/
def extMatches (exts : List String) (extension : String) : Bool :=
  match exts with
  | [] => false
  | e :: rest => if e = extension then true else extMatches rest extension

/-- The configuration fields consumed by the verified code
(`ICOBOLSettings`). -/
structure COBOLSettingsModel where
  copybookexts : List String
  program_extensions : List String
  deriving DecidableEq, Repr

/-- `COBOLFileUtils.isValidCopybookExtension` (`opencopybook.ts` lines
15-29): when the filename has no dot, the *whole filename* is compared
against the configured copybook extensions. -/
def isValidCopybookExtension (filename : String)
    (settings : COBOLSettingsModel) : Bool :=
  let extension :=
    match lastIndexOfChar '.' filename with
    | some lastDot => substrFrom filename (1 + lastDot)
    | none => filename
  extMatches settings.copybookexts extension

/-- `COBOLFileUtils.isValidProgramExtension` (`opencopybook.ts` lines
31-45): when the filename has no dot, the extension is the empty string. -/
def isValidProgramExtension (filename : String)
    (settings : COBOLSettingsModel) : Bool :=
  let extension :=
    match lastIndexOfChar '.' filename with
    | some lastDot => substrFrom filename (1 + lastDot)
    | none => ""
  extMatches settings.program_extensions extension

/-- `path.join(dir, name)` for the non-degenerate inputs the verified code
produces (neither side empty, no `..` segments). -/
def pathJoin (dir name : String) : String :=
  dir ++ "/" ++ name

/-- The extension-retry loop of `COBOLFileUtils.findCopyBook`
(`opencopybook.ts` lines 104-110). -/
def tryExtensions (isFile : String → Bool) (copybookdir filename : String) :
    List String → Option String
  | [] => none
  | ext :: exts =>
      let possibleFile := pathJoin copybookdir (filename ++ "." ++ ext)
      if isFile possibleFile then some possibleFile
      else tryExtensions isFile copybookdir filename exts

/-- The search-directory loop of `COBOLFileUtils.findCopyBook`
(`opencopybook.ts` lines 93-112). `hasDot` is `filename.indexOf(".") !== -1`. -/
def findCopyBookLoop (isFile : String → Bool) (filename : String)
    (hasDot : Bool) (copybookexts : List String) : List String → String
  | [] => ""
  | copybookdir :: dirs =>
      let firstPossibleFile := pathJoin copybookdir filename
      if isFile firstPossibleFile then firstPossibleFile
      else if hasDot then
        findCopyBookLoop isFile filename hasDot copybookexts dirs
      else
        match tryExtensions isFile copybookdir filename copybookexts with
        | some possibleFile => possibleFile
        | none => findCopyBookLoop isFile filename hasDot copybookexts dirs

/-- `COBOLFileUtils.findCopyBook` (`opencopybook.ts` lines 86-115).
`isFile` embeds `COBOLStatUtils.isFile`; `searchPath` embeds
`getCombinedCopyBookSearchPath()` (both external to the verified core). -/
def findCopyBook (isFile : String → Bool) (searchPath : List String)
    (config : COBOLSettingsModel) (filename : String) : String :=
  if filename = "" then ""
  else
    findCopyBookLoop isFile filename (filename.data.contains '.')
      config.copybookexts searchPath

/-- The spec-side enumeration of resolver candidates in search order: for
each directory, the literal join first, then (for extensionless names)
each configured extension in declared order. -/
def copyBookCandidates (searchPath : List String)
    (copybookexts : List String) (filename : String) : List String :=
  searchPath.flatMap (fun copybookdir =>
    pathJoin copybookdir filename ::
      (if filename.data.contains '.' then []
       else copybookexts.map
         (fun ext => pathJoin copybookdir (filename ++ "." ++ ext))))

/-- The statistics counters touched by the `FileType.File` case of
`VSCobScanner.generateCOBScannerData` (`vscobscanner.ts` lines 21-30). -/
structure ScanStatsModel where
  filesIgnored : Nat
  fileCount : Nat
  deriving DecidableEq, Repr

/-- The `FileType.File` case of `VSCobScanner.generateCOBScannerData`
(`vscobscanner.ts` lines 347-357): keep the file if either extension
predicate accepts the joined path, else count it as ignored. -/
def fileCase (settings : COBOLSettingsModel) (folderFsPath entry : String)
    (stats : ScanStatsModel) (files2scan : List String) :
    ScanStatsModel × List String :=
  let fullPath := pathJoin folderFsPath entry
  if isValidProgramExtension fullPath settings ||
      isValidCopybookExtension fullPath settings then
    ({ stats with fileCount := stats.fileCount + 1 }, files2scan ++ [fullPath])
  else
    ({ stats with filesIgnored := stats.filesIgnored + 1 }, files2scan)

/-- `Utils.cacheUpdateRequired` from the `cobscanner` worker source
(concatenated after `cobolworkspacecache.ts`, lines 282-308).  `normalize`
embeds `path.normalize`, `hashHex` embeds the SHA-256 hex digest of
`getHashForFilename`, and `stat` embeds the filesystem: `stat p = some t`
when `p` exists as a regular file with modification time `t`.  The result
is `none` when `fs.statSync` on the source file throws (file vanished);
`some b` is the returned boolean otherwise. -/
def cacheUpdateRequired (normalize hashHex : String → String)
    (stat : String → Option Int)
    (sourceFilenameModified : List (String × COBOLWorkspaceFile))
    (cacheDirectory nfilename : String) : Option Bool :=
  let filename := normalize nfilename
  match mapGet sourceFilenameModified filename with
  | some cachedMtimeWS =>
      match stat filename with
      | some mtimeMs =>
          if cachedMtimeWS.lastModifiedTime < mtimeMs then some true
          else some false
      | none => none
  | none =>
      let fn := pathJoin cacheDirectory (hashHex filename ++ ".sym")
      match stat fn with
      | some cacheMtime =>
          match stat filename with
          | some srcMtime =>
              if cacheMtime < srcMtime then some true else some false
          | none => none
      | none => some true

/-- The `COBSCANNER_SENDPRGID` branch of the coordinator's message handler
(`vscobscanner.ts` lines 177-185): clear entry points, clear types, then
add the program symbol. -/
def handleSendPrgId (tokenName : String) (tokenLine : Int)
    (tokenFilename : String) (s : GlobalSymbolCache) : GlobalSymbolCache :=
  addSymbol tokenFilename tokenName tokenLine
    (removeAllTypes tokenFilename
      (removeAllProgramEntryPoints tokenFilename s))

/-- Modelled from the spec: `InMemoryGlobalCacheHelper.addFilename` from
`globalcachehelper.ts` (not among the provided sources); per the spec's
ADD_FILE row it records/replaces the file's SourceFileRecord keyed by the
full path. -/
def addFilename (fullFilename : String) (cws : COBOLWorkspaceFile)
    (s : GlobalSymbolCache) : GlobalSymbolCache :=
  let m := mapSet s.sourceFilenameModified fullFilename cws
  { s with sourceFilenameModified := m }

/-- Modelled from the spec: the tag constants of `cobscannerdata.ts` (not
among the provided sources) are the two-character sentinel `@@` followed
by the spec's tag keyword. -/
def COBSCANNER_STATUS : String := "@@STATUS"

/-- Modelled from the spec: the SEND_ENTRYPOINT tag. -/
def COBSCANNER_SENDEP : String := "@@SEND_ENTRYPOINT"

/-- Modelled from the spec: the SEND_PROGRAM_ID tag. -/
def COBSCANNER_SENDPRGID : String := "@@SEND_PROGRAM_ID"

/-- Modelled from the spec: the SEND_CLASS tag. -/
def COBSCANNER_SENDCLASS : String := "@@SEND_CLASS"

/-- Modelled from the spec: the SEND_INTERFACE tag. -/
def COBSCANNER_SENDINTERFACE : String := "@@SEND_INTERFACE"

/-- Modelled from the spec: the SEND_ENUM tag. -/
def COBSCANNER_SENDENUM : String := "@@SEND_ENUM"

/-- Modelled from the spec: the ADD_FILE tag. -/
def COBSCANNER_ADDFILE : String := "@@ADD_FILE"

/-- Modelled from the spec: the KNOWN_COPYBOOK tag. -/
def COBSCANNER_KNOWNCOPYBOOK : String := "@@KNOWN_COPYBOOK"

/-- JS `str.split(" ")`. -/
def jsSplitOnSpace (s : String) : List String :=
  (splitCharsP (fun c => c = ' ') s.data).map String.mk

/-- The coordinator-side state observable through the message handler: the
Global Symbol Cache, the progress bar (`prevPercent`, text, visibility)
and the log sink as the list of forwarded lines. -/
structure CoordState where
  cache : GlobalSymbolCache
  prevPercent : Int
  progressText : String
  progressShown : Bool
  log : List String
  deriving DecidableEq, Repr

/-- The `child.on('message')` handler of `VSCobScanner.forkScanner`
(`vscobscanner.ts` lines 156-227).  `pi` embeds `Number.parseInt(·, 10)`,
`toBigInt` embeds `BigInt(·)`, `shortName` embeds the external
`COBOLStatUtils.getShortWorkspaceFilename`.  The JS float truncation
`((a1 / a2) * 100) | 0` is embedded as integer division (no verified
claim depends on the progress arithmetic). -/
def onMessage (pi : String → Int) (toBigInt : String → Int)
    (shortName : String → Option String) (st : CoordState) (msg : String) :
    CoordState :=
  if jsStartsWith msg "@@" then
    if jsStartsWith msg COBSCANNER_STATUS then
      let args := jsSplitOnSpace msg
      let a1 := pi (args.getD 1 "")
      let a2 := pi (args.getD 2 "")
      let percent := a1 * 100 / a2
      if st.prevPercent ≠ percent then
        { st with progressShown := true,
                  progressText :=
                    "Processing metadata: " ++ toString percent ++ "%",
                  prevPercent := percent }
      else
        { st with progressShown := true }
    else if jsStartsWith msg COBSCANNER_SENDEP then
      let args := jsSplitOnComma msg
      let c := addEntryPoint (args.getD 3 "") (args.getD 1 "")
        (pi (args.getD 2 "")) st.cache
      { st with cache := c }
    else if jsStartsWith msg COBSCANNER_SENDPRGID then
      let args := jsSplitOnComma msg
      let c := handleSendPrgId (args.getD 1 "") (pi (args.getD 2 ""))
        (args.getD 3 "") st.cache
      { st with cache := c }
    else if jsStartsWith msg COBSCANNER_SENDCLASS then
      let args := jsSplitOnComma msg
      let c := addClass (args.getD 3 "") (args.getD 1 "")
        (pi (args.getD 2 "")) TypeCategory.ClassId st.cache
      { st with cache := c }
    else if jsStartsWith msg COBSCANNER_SENDINTERFACE then
      let args := jsSplitOnComma msg
      let c := addClass (args.getD 3 "") (args.getD 1 "")
        (pi (args.getD 2 "")) TypeCategory.InterfaceId st.cache
      { st with cache := c }
    else if jsStartsWith msg COBSCANNER_SENDENUM then
      let args := jsSplitOnComma msg
      let c := addClass (args.getD 3 "") (args.getD 1 "")
        (pi (args.getD 2 "")) TypeCategory.EnumId st.cache
      { st with cache := c }
    else if jsStartsWith msg COBSCANNER_ADDFILE then
      let args := jsSplitOnComma msg
      let ms := toBigInt (args.getD 1 "")
      let fullFilename := args.getD 2 ""
      match shortName fullFilename with
      | some shortFilename =>
          let c := removeAllProgramEntryPoints shortFilename
            (addFilename fullFilename ⟨ms, shortFilename⟩ st.cache)
          { st with cache := c }
      | none => st
    else if jsStartsWith msg COBSCANNER_KNOWNCOPYBOOK then
      let args := jsSplitOnComma msg
      let c := addReferencedCopybook (args.getD 1 "") (args.getD 2 "") st.cache
      { st with cache := c }
    else
      st
  else
    { st with log := st.log ++ [msg] }

/-- The public cache-mutating operations considered by the merge-policy
invariants: the three adders (all routed through `addSymbolToCache`) and
the three public removers (all routed through `removeAllProgramSymbols`). -/
inductive CacheOp where
  | addSymbolOp (srcfilename symbolUnchanged : String) (lineNumber : Int)
  | addEntryPointOp (srcfilename symbolUnchanged : String) (lineNumber : Int)
  | addClassOp (srcfilename symbolUnchanged : String) (lineNumber : Int)
      (category : TypeCategory)
  | removeAllProgramsOp (srcfilename : String)
  | removeAllProgramEntryPointsOp (srcfilename : String)
  | removeAllTypesOp (srcfilename : String)
  deriving DecidableEq, Repr

/-- Apply one public cache operation. -/
def applyCacheOp (s : GlobalSymbolCache) : CacheOp → GlobalSymbolCache
  | CacheOp.addSymbolOp f n l => addSymbol f n l s
  | CacheOp.addEntryPointOp f n l => addEntryPoint f n l s
  | CacheOp.addClassOp f n l c => addClass f n l c s
  | CacheOp.removeAllProgramsOp f => removeAllPrograms f s
  | CacheOp.removeAllProgramEntryPointsOp f => removeAllProgramEntryPoints f s
  | CacheOp.removeAllTypesOp f => removeAllTypes f s

/-- Run a sequence of public cache operations. -/
def runCacheOps (ops : List CacheOp) (s : GlobalSymbolCache) :
    GlobalSymbolCache :=
  ops.foldl applyCacheOp s

/-- The chronological sequence of short filenames inserted into the bucket
`k` of `callableSymbols` by a sequence of operations. -/
def insCallable : List CacheOp → String → List String
  | [], _ => []
  | CacheOp.addSymbolOp f n _ :: ops, k =>
      (if jsToLower n = k then [getFilenameWithoutPath f] else []) ++
        insCallable ops k
  | _ :: ops, k => insCallable ops k

/-- The chronological sequence of short filenames inserted into the bucket
`k` of `entryPoints` by a sequence of operations. -/
def insEntryPoints : List CacheOp → String → List String
  | [], _ => []
  | CacheOp.addEntryPointOp f n _ :: ops, k =>
      (if jsToLower n = k then [getFilenameWithoutPath f] else []) ++
        insEntryPoints ops k
  | _ :: ops, k => insEntryPoints ops k

/-- The chronological sequence of short filenames inserted into the bucket
`k` of the map selected by `cat` (`types`/`interfaces`/`enums`) by a
sequence of operations. -/
def insClassMap (cat : TypeCategory) : List CacheOp → String → List String
  | [], _ => []
  | CacheOp.addClassOp f n _ c :: ops, k =>
      (if c = cat ∧ jsToLower n = k then [getFilenameWithoutPath f] else []) ++
        insClassMap cat ops k
  | _ :: ops, k => insClassMap cat ops k

/-- The filenames of a bucket, in bucket order. -/
def filenamesOf (l : List COBOLFileSymbol) : List String :=
  l.map (fun s => s.filename)

/-- Bucket health relative to an insertion history `h`: unique keys, no
empty bucket, at most one FileSymbol per filename, and the bucket's
filename sequence is a subsequence of the history of its key. -/
def MapInvH (h : String → List String) (m : SymMap) : Prop :=
  (m.map Prod.fst).Nodup ∧
    ∀ kv ∈ m, kv.2 ≠ [] ∧ (filenamesOf kv.2).Nodup ∧
      (filenamesOf kv.2).Sublist (h kv.1)

/-- No FileSymbol of the map is attributed to filename `fn`. -/
def noFileIn (m : SymMap) (fn : String) : Prop :=
  ∀ kv ∈ m, ∀ sym ∈ kv.2, sym.filename ≠ fn

/-- One fold step of `loadGlobalEntryCacheFromArray` restricted to the
`entryPoints` map (the dirty flag does not influence the map result). -/
def epStep (pi : String → Int) (m : SymMap) (symbol : String) : SymMap :=
  let symbolValues := jsSplitOnComma symbol
  if symbolValues.length = 3 then
    (addSymbolToCache (getFilenameWithoutPath (symbolValues.getD 1 ""))
      (symbolValues.getD 0 "") (pi (symbolValues.getD 2 "")) m false).1
  else m

/-- Boolean match predicate of the `addSymbolToCache` loop: entry belongs
to the source file. -/
def matchesFile (f : String) (s : COBOLFileSymbol) : Bool :=
  decide (s.filename = f)

/-- Boolean predicate of the loop's "non file-symbol" tracking: entry
belongs to the source file and its line is not the sentinel `1`. -/
def matchesNonSentinel (f : String) (s : COBOLFileSymbol) : Bool :=
  decide (s.filename = f) && decide (s.lnum ≠ 1)

/-- Bucket health of all five symbol mappings relative to per-mapping
insertion histories. -/
def CacheInvH (h1 h2 h3 h4 h5 : String → List String)
    (s : GlobalSymbolCache) : Prop :=
  MapInvH h1 s.callableSymbols ∧ MapInvH h2 s.entryPoints ∧
    MapInvH h3 s.types ∧ MapInvH h4 s.interfaces ∧ MapInvH h5 s.enums

theorem mapGet_mapSet_self {α : Type} (m : List (String × α)) (k : String)
    (v : α) : mapGet (mapSet m k v) k = some v := by
  induction m with
  | nil => simp [mapSet, mapGet]
  | cons p rest ih =>
      obtain ⟨k', v'⟩ := p
      by_cases h : k' = k
      · simp [mapSet, h, mapGet]
      · simp [mapSet, h, mapGet, ih]

theorem mapGet_mapSet_ne {α : Type} (m : List (String × α)) (k k' : String)
    (v : α) (h : k' ≠ k) : mapGet (mapSet m k v) k' = mapGet m k' := by
  induction m with
  | nil =>
      simp only [mapSet, mapGet]
      rw [if_neg (fun hh : k = k' => h hh.symm)]
  | cons p rest ih =>
      obtain ⟨k0, v0⟩ := p
      by_cases h0 : k0 = k
      · subst h0
        simp only [mapSet, if_pos rfl, mapGet]
        have hne : ¬ k0 = k' := fun hh => h hh.symm
        rw [if_neg hne, if_neg hne]
      · simp only [mapSet, if_neg h0, mapGet]
        by_cases h1 : k0 = k'
        · simp [h1]
        · simp [h1, ih]

theorem mapGet_mem {α : Type} {m : List (String × α)} {k : String} {v : α}
    (h : mapGet m k = some v) : (k, v) ∈ m := by
  induction m with
  | nil => simp [mapGet] at h
  | cons p rest ih =>
      obtain ⟨k0, v0⟩ := p
      by_cases h0 : k0 = k
      · subst h0
        simp [mapGet] at h
        simp [h]
      · simp [mapGet, h0] at h
        exact List.mem_cons_of_mem _ (ih h)

theorem mem_mapSet {α : Type} {m : List (String × α)} {k : String} {v : α}
    {p : String × α} (h : p ∈ mapSet m k v) : p = (k, v) ∨ p ∈ m := by
  induction m with
  | nil => simpa [mapSet] using h
  | cons q rest ih =>
      obtain ⟨k0, v0⟩ := q
      by_cases h0 : k0 = k
      · simp [mapSet, h0] at h
        rcases h with h | h
        · exact Or.inl h
        · exact Or.inr (List.mem_cons_of_mem _ h)
      · simp [mapSet, h0] at h
        rcases h with h | h
        · exact Or.inr (by simp [h])
        · rcases ih h with h' | h'
          · exact Or.inl h'
          · exact Or.inr (List.mem_cons_of_mem _ h')

theorem mem_keys_mapSet {α : Type} {m : List (String × α)} {k a : String}
    {v : α} (h : a ∈ (mapSet m k v).map Prod.fst) :
    a = k ∨ a ∈ m.map Prod.fst := by
  rcases List.mem_map.mp h with ⟨p, hp, rfl⟩
  rcases mem_mapSet hp with h' | h'
  · left; rw [h']
  · right; exact List.mem_map.mpr ⟨p, h', rfl⟩

theorem keys_nodup_mapSet {α : Type} {m : List (String × α)} {k : String}
    {v : α} (h : (m.map Prod.fst).Nodup) :
    ((mapSet m k v).map Prod.fst).Nodup := by
  induction m with
  | nil => simp [mapSet]
  | cons q rest ih =>
      obtain ⟨k0, v0⟩ := q
      by_cases h0 : k0 = k
      · subst h0
        have hms : mapSet ((k0, v0) :: rest) k0 v = (k0, v) :: rest := by
          simp [mapSet]
        rw [hms]
        simpa using h
      · have hms :
            mapSet ((k0, v0) :: rest) k v = (k0, v0) :: mapSet rest k v := by
          simp [mapSet, h0]
        rw [hms]
        simp only [List.map_cons, List.nodup_cons] at h ⊢
        refine ⟨fun hmem => ?_, ih h.2⟩
        rcases mem_keys_mapSet hmem with h' | h'
        · exact h0 h'
        · exact h.1 h'

theorem mapGet_eq_none_of_not_mem_keys {α : Type} {m : List (String × α)}
    {k : String} (h : k ∉ m.map Prod.fst) : mapGet m k = none := by
  induction m with
  | nil => rfl
  | cons q rest ih =>
      obtain ⟨k0, v0⟩ := q
      simp only [List.map_cons, List.mem_cons] at h
      push_neg at h
      simp only [mapGet]
      rw [if_neg (fun hh : k0 = k => h.1 hh.symm)]
      exact ih h.2

theorem removeAllProgramSymbols_cons (f : String) (kv : String × List COBOLFileSymbol) (rest : SymMap) :
    removeAllProgramSymbols f (kv :: rest) =
      if kv.2.filter (fun s => s.filename ≠ f) = [] then
        (if kv.2 = [] then kv :: removeAllProgramSymbols f rest
         else removeAllProgramSymbols f rest)
      else
        (kv.1, kv.2.filter (fun s => s.filename ≠ f)) ::
          removeAllProgramSymbols f rest := by
  by_cases hemp : kv.2.filter (fun s => s.filename ≠ f) = []
  · rw [if_pos hemp]
    by_cases hnil : kv.2 = []
    · rw [if_pos hnil]
      have hlen : ¬ (kv.2.filter (fun s => s.filename ≠ f)).length ≠
          kv.2.length := by
        rw [hemp, hnil]
        simp
      simp only [removeAllProgramSymbols, List.filterMap_cons]
      rw [if_neg hlen]
    · rw [if_neg hnil]
      have hlen : (kv.2.filter (fun s => s.filename ≠ f)).length ≠
          kv.2.length := by
        rw [hemp]
        simp only [List.length_nil]
        intro hz
        exact hnil (List.length_eq_zero.mp hz.symm)
      have hzero : ¬ (kv.2.filter (fun s => s.filename ≠ f)).length ≠ 0 := by
        rw [hemp]
        simp
      simp only [removeAllProgramSymbols, List.filterMap_cons]
      rw [if_pos hlen, if_neg hzero]
  · rw [if_neg hemp]
    by_cases hlen : (kv.2.filter (fun s => s.filename ≠ f)).length =
        kv.2.length
    · have hfe : kv.2.filter (fun s => s.filename ≠ f) = kv.2 :=
        (List.filter_sublist kv.2).eq_of_length hlen
      simp only [removeAllProgramSymbols, List.filterMap_cons]
      rw [if_neg (fun hh => hh hlen), hfe]
    · have hzero : (kv.2.filter (fun s => s.filename ≠ f)).length ≠ 0 := by
        intro hz
        exact hemp (List.length_eq_zero.mp hz)
      simp only [removeAllProgramSymbols, List.filterMap_cons]
      rw [if_pos hlen, if_pos hzero]

theorem mem_removeAllProgramSymbols {f : String} {m : SymMap}
    {p : String × List COBOLFileSymbol}
    (h : p ∈ removeAllProgramSymbols f m) :
    ∃ l0, (p.1, l0) ∈ m ∧
      p.2 = l0.filter (fun s => s.filename ≠ f) ∧ (l0 = [] ∨ p.2 ≠ []) := by
  induction m with
  | nil => simp [removeAllProgramSymbols] at h
  | cons kv rest ih =>
      rw [removeAllProgramSymbols_cons] at h
      by_cases hemp : kv.2.filter (fun s => s.filename ≠ f) = []
      · rw [if_pos hemp] at h
        by_cases hnil : kv.2 = []
        · rw [if_pos hnil] at h
          rcases List.mem_cons.mp h with h' | h'
          · refine ⟨kv.2, ?_, ?_, Or.inl hnil⟩
            · rw [h']
              exact List.mem_cons_self _ _
            · rw [h', hemp, hnil]
          · rcases ih h' with ⟨l0, hmem, hfil, hd⟩
            exact ⟨l0, List.mem_cons_of_mem _ hmem, hfil, hd⟩
        · rw [if_neg hnil] at h
          rcases ih h with ⟨l0, hmem, hfil, hd⟩
          exact ⟨l0, List.mem_cons_of_mem _ hmem, hfil, hd⟩
      · rw [if_neg hemp] at h
        rcases List.mem_cons.mp h with h' | h'
        · refine ⟨kv.2, ?_, ?_, ?_⟩
          · rw [h']
            exact List.mem_cons_self _ _
          · rw [h']
          · refine Or.inr ?_
            rw [h']
            exact hemp
        · rcases ih h' with ⟨l0, hmem, hfil, hd⟩
          exact ⟨l0, List.mem_cons_of_mem _ hmem, hfil, hd⟩

theorem keys_sublist_removeAllProgramSymbols (f : String) (m : SymMap) :
    List.Sublist ((removeAllProgramSymbols f m).map Prod.fst)
      (m.map Prod.fst) := by
  induction m with
  | nil => simp [removeAllProgramSymbols]
  | cons kv rest ih =>
      rw [removeAllProgramSymbols_cons]
      by_cases hemp : kv.2.filter (fun s => s.filename ≠ f) = []
      · rw [if_pos hemp]
        by_cases hnil : kv.2 = []
        · rw [if_pos hnil]
          simpa using ih.cons₂ kv.1
        · rw [if_neg hnil]
          exact ih.trans (by simp [List.sublist_cons_self])
      · rw [if_neg hemp]
        simpa using ih.cons₂ kv.1

theorem not_mem_keys_of_mapGet_eq_none {α : Type} {m : List (String × α)}
    {k : String} (h : mapGet m k = none) : k ∉ m.map Prod.fst := by
  induction m with
  | nil => simp
  | cons q rest ih =>
      obtain ⟨k0, v0⟩ := q
      by_cases h0 : k0 = k
      · rw [show mapGet ((k0, v0) :: rest) k = some v0 by
          simp [mapGet, h0]] at h
        exact absurd h (by simp)
      · simp only [mapGet, if_neg h0] at h
        simp only [List.map_cons, List.mem_cons]
        push_neg
        exact ⟨fun hh => h0 hh.symm, ih h⟩

theorem mapGet_removeAllProgramSymbols_none {m : SymMap} {f k : String}
    (hget : mapGet m k = none) :
    mapGet (removeAllProgramSymbols f m) k = none := by
  apply mapGet_eq_none_of_not_mem_keys
  intro hmem
  exact not_mem_keys_of_mapGet_eq_none hget
    ((keys_sublist_removeAllProgramSymbols f m).subset hmem)

theorem mapGet_removeAllProgramSymbols_some {m : SymMap} {f k : String}
    {l : List COBOLFileSymbol} (hnd : (m.map Prod.fst).Nodup)
    (hget : mapGet m k = some l) (hne : l ≠ []) :
    mapGet (removeAllProgramSymbols f m) k =
      if (l.filter (fun s => s.filename ≠ f)).isEmpty then none
      else some (l.filter (fun s => s.filename ≠ f)) := by
  induction m with
  | nil => simp [mapGet] at hget
  | cons kv rest ih =>
      obtain ⟨k0, l0⟩ := kv
      simp only [List.map_cons, List.nodup_cons] at hnd
      rw [removeAllProgramSymbols_cons]
      by_cases h0 : k0 = k
      · subst h0
        rw [show mapGet ((k0, l0) :: rest) k0 = some l0 by
          simp [mapGet]] at hget
        have hl : l0 = l := Option.some.inj hget
        subst hl
        by_cases hemp : l0.filter (fun s => s.filename ≠ f) = []
        · rw [if_pos hemp, if_neg hne]
          have hnm : k0 ∉ (removeAllProgramSymbols f rest).map Prod.fst :=
            fun hmem =>
              hnd.1 ((keys_sublist_removeAllProgramSymbols f rest).subset hmem)
          rw [mapGet_eq_none_of_not_mem_keys hnm]
          rw [if_pos (show (l0.filter (fun s => s.filename ≠ f)).isEmpty =
            true by rw [hemp]; rfl)]
        · rw [if_neg hemp]
          rw [if_neg (fun hh => hemp (List.isEmpty_iff.mp hh))]
          simp [mapGet]
      · simp only [mapGet, if_neg h0] at hget
        by_cases hemp : l0.filter (fun s => s.filename ≠ f) = []
        · rw [if_pos hemp]
          by_cases hnil : l0 = []
          · rw [if_pos hnil]
            simp only [mapGet, if_neg h0]
            exact ih hnd.2 hget
          · rw [if_neg hnil]
            exact ih hnd.2 hget
        · rw [if_neg hemp]
          simp only [mapGet, if_neg h0]
          exact ih hnd.2 hget

theorem noFileIn_removeAllProgramSymbols (f : String) (m : SymMap) :
    noFileIn (removeAllProgramSymbols f m) f := by
  intro kv hkv sym hsym
  rcases mem_removeAllProgramSymbols hkv with ⟨l0, _, hfilter, _⟩
  rw [hfilter] at hsym
  have := (List.mem_filter.mp hsym).2
  simpa using this

/-- C9: removal operations never touch the dirty flag: the three public
removers built on `removeAllProgramSymbols`, and
`removeAllCopybookReferences`, all leave `isDirty` exactly as it was
(and each mutates only its own target maps). -/
theorem removal_ops_preserve_isDirty (s : GlobalSymbolCache) (f : String) :
    (removeAllPrograms f s).isDirty = s.isDirty ∧
    (removeAllProgramEntryPoints f s).isDirty = s.isDirty ∧
    (removeAllTypes f s).isDirty = s.isDirty ∧
    (removeAllCopybookReferences f s).isDirty = s.isDirty ∧
    (removeAllPrograms f s).entryPoints = s.entryPoints ∧
    (removeAllProgramEntryPoints f s).callableSymbols = s.callableSymbols ∧
    (removeAllTypes f s).callableSymbols = s.callableSymbols ∧
    (removeAllCopybookReferences f s).callableSymbols = s.callableSymbols :=
  ⟨rfl, rfl, rfl, rfl, rfl, rfl, rfl, rfl⟩

/-- C2: handling SEND_PROGRAM_ID first clears every entry point and every
type/interface/enum entry attributed to the (short) filename, then inserts
the program symbol into `callableSymbols` via the merge policy: after the
message no entry point or type entry for that file remains, for every
prior state. -/
theorem send_program_id_destructive (s : GlobalSymbolCache)
    (name : String) (line : Int) (f : String) :
    noFileIn (handleSendPrgId name line f s).entryPoints
      (getFilenameWithoutPath f) ∧
    noFileIn (handleSendPrgId name line f s).types
      (getFilenameWithoutPath f) ∧
    noFileIn (handleSendPrgId name line f s).interfaces
      (getFilenameWithoutPath f) ∧
    noFileIn (handleSendPrgId name line f s).enums
      (getFilenameWithoutPath f) ∧
    (handleSendPrgId name line f s).callableSymbols =
      (addSymbolToCache (getFilenameWithoutPath f) name line
        s.callableSymbols s.isDirty).1 := by
  refine ⟨?_, ?_, ?_, ?_, rfl⟩
  · exact noFileIn_removeAllProgramSymbols _ _
  · exact noFileIn_removeAllProgramSymbols _ _
  · exact noFileIn_removeAllProgramSymbols _ _
  · exact noFileIn_removeAllProgramSymbols _ _

theorem addSymbolToCache_map_eq (f n : String) (line : Int) (m : SymMap)
    (d d' : Bool) :
    (addSymbolToCache f n line m d).1 = (addSymbolToCache f n line m d').1 := by
  cases hget : mapGet m (jsToLower n) with
  | none => simp [addSymbolToCache, hget]
  | some l =>
      rcases hscan : scanLoop f l 0 (0, 0, none) with ⟨c, last, nfs⟩
      by_cases hc : c = 0
      · simp [addSymbolToCache, hget, hscan, hc]
      · by_cases hc1 : c = 1
        · simp [addSymbolToCache, hget, hscan, hc, hc1]
        · cases nfs with
          | some j => simp [addSymbolToCache, hget, hscan, hc, hc1]
          | none => simp [addSymbolToCache, hget, hscan, hc, hc1]

theorem loadEntry_foldl_aux (pi : String → Int) :
    ∀ (symbols : List String) (s : GlobalSymbolCache),
    (symbols.foldl (fun st symbol =>
        let symbolValues := jsSplitOnComma symbol
        if symbolValues.length = 3 then
          addEntryPoint (symbolValues.getD 1 "") (symbolValues.getD 0 "")
            (pi (symbolValues.getD 2 "")) st
        else st) s).callableSymbols = s.callableSymbols ∧
    (symbols.foldl (fun st symbol =>
        let symbolValues := jsSplitOnComma symbol
        if symbolValues.length = 3 then
          addEntryPoint (symbolValues.getD 1 "") (symbolValues.getD 0 "")
            (pi (symbolValues.getD 2 "")) st
        else st) s).entryPoints = symbols.foldl (epStep pi) s.entryPoints := by
  intro symbols
  induction symbols with
  | nil => exact fun s => ⟨rfl, rfl⟩
  | cons sym rest ih =>
      intro s
      simp only [List.foldl_cons]
      constructor
      · rw [(ih _).1]
        by_cases hlen : (jsSplitOnComma sym).length = 3
        · simp [hlen, addEntryPoint]
        · simp [hlen]
      · rw [(ih _).2]
        have hstep :
            ((fun (st : GlobalSymbolCache) (symbol : String) =>
              let symbolValues := jsSplitOnComma symbol
              if symbolValues.length = 3 then
                addEntryPoint (symbolValues.getD 1 "") (symbolValues.getD 0 "")
                  (pi (symbolValues.getD 2 "")) st
              else st) s sym).entryPoints = epStep pi s.entryPoints sym := by
          by_cases hlen : (jsSplitOnComma sym).length = 3
          · simp only [hlen, if_pos, epStep, addEntryPoint]
            exact addSymbolToCache_map_eq _ _ _ _ _ _
          · simp [hlen, epStep]
        rw [hstep]

/-- C10: a clearing entry-point reload erases `callableSymbols` — not
`entryPoints`: `loadGlobalEntryCacheFromArray symbols true` leaves
`callableSymbols` empty, folds the parsed three-field rows into the
*prior* `entryPoints` map (so pre-existing entry points survive), and with
no rows the prior `entryPoints` is untouched entirely. -/
theorem entry_reload_clears_callable (pi : String → Int)
    (symbols : List String) (s : GlobalSymbolCache) :
    (loadGlobalEntryCacheFromArray pi symbols true s).callableSymbols = [] ∧
    (loadGlobalEntryCacheFromArray pi symbols true s).entryPoints =
      symbols.foldl (epStep pi) s.entryPoints ∧
    (loadGlobalEntryCacheFromArray pi [] true s).entryPoints =
      s.entryPoints := by
  refine ⟨?_, ?_, rfl⟩
  · rw [show loadGlobalEntryCacheFromArray pi symbols true s =
      symbols.foldl (fun st symbol =>
        let symbolValues := jsSplitOnComma symbol
        if symbolValues.length = 3 then
          addEntryPoint (symbolValues.getD 1 "") (symbolValues.getD 0 "")
            (pi (symbolValues.getD 2 "")) st
        else st) { s with callableSymbols := [] } from rfl]
    exact (loadEntry_foldl_aux pi symbols _).1
  · rw [show loadGlobalEntryCacheFromArray pi symbols true s =
      symbols.foldl (fun st symbol =>
        let symbolValues := jsSplitOnComma symbol
        if symbolValues.length = 3 then
          addEntryPoint (symbolValues.getD 1 "") (symbolValues.getD 0 "")
            (pi (symbolValues.getD 2 "")) st
        else st) { s with callableSymbols := [] } from rfl]
    exact (loadEntry_foldl_aux pi symbols _).2

/-- C3: `cacheUpdateRequired` is correct: with an in-memory record, the
result is true when the file's current modification time exceeds the
stored one and false when unchanged; with no record but a persisted
artifact, the result is true exactly when the artifact is older than the
source; with neither, the result is true. -/
theorem cache_update_required_correct (normalize hashHex : String → String)
    (stat : String → Option Int)
    (m : List (String × COBOLWorkspaceFile)) (cacheDirectory nfilename : String) :
    (∀ r t, mapGet m (normalize nfilename) = some r →
      stat (normalize nfilename) = some t →
      (r.lastModifiedTime < t →
        cacheUpdateRequired normalize hashHex stat m cacheDirectory nfilename =
          some true) ∧
      (t = r.lastModifiedTime →
        cacheUpdateRequired normalize hashHex stat m cacheDirectory nfilename =
          some false)) ∧
    (∀ ca t, mapGet m (normalize nfilename) = none →
      stat (pathJoin cacheDirectory (hashHex (normalize nfilename) ++ ".sym")) =
        some ca →
      stat (normalize nfilename) = some t →
      cacheUpdateRequired normalize hashHex stat m cacheDirectory nfilename =
        some (decide (ca < t))) ∧
    (mapGet m (normalize nfilename) = none →
      stat (pathJoin cacheDirectory (hashHex (normalize nfilename) ++ ".sym")) =
        none →
      cacheUpdateRequired normalize hashHex stat m cacheDirectory nfilename =
        some true) := by
  refine ⟨?_, ?_, ?_⟩
  · intro r t hget hstat
    constructor
    · intro hlt
      simp [cacheUpdateRequired, hget, hstat, hlt]
    · intro heq
      have hnlt : ¬ r.lastModifiedTime < t := by
        rw [heq]
        exact lt_irrefl _
      simp [cacheUpdateRequired, hget, hstat, hnlt]
  · intro ca t hget hart hstat
    by_cases hlt : ca < t
    · simp [cacheUpdateRequired, hget, hart, hstat, hlt]
    · simp [cacheUpdateRequired, hget, hart, hstat, hlt]
  · intro hget hart
    simp [cacheUpdateRequired, hget, hart]

/-- C3 witness at concrete inputs: a cached record with stored time 10 and
current time 11 forces a rescan; the artifact tier and first-sighting tier
answer as specified. -/
theorem cache_update_required_correct_witness :
    cacheUpdateRequired (fun s => s) (fun _ => "H")
      (fun p => if p = "f" then some 11 else none)
      [("f", ⟨10, "f"⟩)] "cache" "f" = some true ∧
    cacheUpdateRequired (fun s => s) (fun _ => "H")
      (fun p => if p = "f" then some 11 else
        if p = "cache/H.sym" then some 12 else none)
      [] "cache" "f" = some false ∧
    cacheUpdateRequired (fun s => s) (fun _ => "H")
      (fun p => if p = "f" then some 11 else none)
      [] "cache" "f" = some true := by
  refine ⟨?_, ?_, ?_⟩
  · exact ((cache_update_required_correct (fun s => s) (fun _ => "H")
      (fun p => if p = "f" then some 11 else none)
      [("f", ⟨10, "f"⟩)] "cache" "f").1 ⟨10, "f"⟩ 11 (by decide)
      (by decide)).1 (by decide)
  · exact ((cache_update_required_correct (fun s => s) (fun _ => "H")
      (fun p => if p = "f" then some 11 else
        if p = "cache/H.sym" then some 12 else none)
      [] "cache" "f").2.1 12 11 (by decide) (by decide) (by decide)).trans
      (by decide)
  · exact (cache_update_required_correct (fun s => s) (fun _ => "H")
      (fun p => if p = "f" then some 11 else none)
      [] "cache" "f").2.2 (by decide) (by decide)

/-- C8: a regular file encountered by the directory scanner is added to
the candidate list if and only if one of the two extension predicates
accepts the joined path; otherwise only the `filesIgnored` counter is
incremented. -/
theorem scanner_extension_filter (settings : COBOLSettingsModel)
    (folder entry : String) (stats : ScanStatsModel) (files : List String) :
    (isValidProgramExtension (pathJoin folder entry) settings = true ∨
      isValidCopybookExtension (pathJoin folder entry) settings = true →
      fileCase settings folder entry stats files =
        ({ stats with fileCount := stats.fileCount + 1 },
          files ++ [pathJoin folder entry])) ∧
    (isValidProgramExtension (pathJoin folder entry) settings = false →
      isValidCopybookExtension (pathJoin folder entry) settings = false →
      fileCase settings folder entry stats files =
        ({ stats with filesIgnored := stats.filesIgnored + 1 }, files)) := by
  constructor
  · intro hvalid
    rcases hvalid with h | h <;> simp [fileCase, h]
  · intro h1 h2
    simp [fileCase, h1, h2]

/-- C8 witness: with program extension `cbl` and copybook extension `cpy`,
the file `src/a.cbl` is kept (file count incremented) while `src/x.txt`
is ignored (ignored count incremented, not added). -/
theorem scanner_extension_filter_witness :
    fileCase ⟨["cpy"], ["cbl"]⟩ "src" "a.cbl" ⟨0, 0⟩ [] =
      (⟨0, 1⟩, ["src/a.cbl"]) ∧
    fileCase ⟨["cpy"], ["cbl"]⟩ "src" "x.txt" ⟨0, 0⟩ [] = (⟨1, 0⟩, []) := by
  constructor
  · exact ((scanner_extension_filter ⟨["cpy"], ["cbl"]⟩ "src" "a.cbl"
      ⟨0, 0⟩ []).1 (Or.inl (by decide))).trans (by decide)
  · exact ((scanner_extension_filter ⟨["cpy"], ["cbl"]⟩ "src" "x.txt"
      ⟨0, 0⟩ []).2 (by decide) (by decide)).trans (by decide)

theorem tryExtensions_eq_find (isFile : String → Bool)
    (copybookdir filename : String) (exts : List String) :
    tryExtensions isFile copybookdir filename exts =
      (exts.map (fun ext => pathJoin copybookdir (filename ++ "." ++ ext))).find?
        isFile := by
  induction exts with
  | nil => rfl
  | cons ext rest ih =>
      simp only [tryExtensions, List.map_cons, List.find?_cons]
      by_cases hf : isFile (pathJoin copybookdir (filename ++ "." ++ ext))
      · simp [hf]
      · simp only [hf, Bool.false_eq_true, if_neg, not_false_iff, reduceIte]
        exact ih

theorem copyBookCandidates_cons (dir : String) (dirs : List String)
    (copybookexts : List String) (filename : String) :
    copyBookCandidates (dir :: dirs) copybookexts filename =
      (pathJoin dir filename ::
        (if filename.data.contains '.' then []
         else copybookexts.map
           (fun ext => pathJoin dir (filename ++ "." ++ ext)))) ++
        copyBookCandidates dirs copybookexts filename := by
  simp [copyBookCandidates]

theorem findCopyBookLoop_eq_find (isFile : String → Bool) (filename : String)
    (copybookexts : List String) (b : Bool)
    (hb : filename.data.contains '.' = b) (searchPath : List String) :
    findCopyBookLoop isFile filename b copybookexts searchPath =
      match (copyBookCandidates searchPath copybookexts filename).find? isFile
        with
      | some p => p
      | none => "" := by
  induction searchPath with
  | nil => rfl
  | cons dir dirs ih =>
      rw [copyBookCandidates_cons, hb, List.find?_append, List.find?_cons]
      by_cases hf : isFile (pathJoin dir filename)
      · simp [findCopyBookLoop, hf]
      · simp only [findCopyBookLoop, hf, Bool.false_eq_true,
          not_false_iff, reduceIte]
        cases b with
        | true =>
            simp only [if_pos, List.find?_nil, Option.none_or]
            exact ih
        | false =>
            simp only [Bool.false_eq_true, not_false_iff, reduceIte]
            rw [tryExtensions_eq_find isFile dir filename copybookexts]
            cases hfind : (copybookexts.map
                (fun ext => pathJoin dir (filename ++ "." ++ ext))).find? isFile
              with
            | some p => simp [hfind]
            | none =>
                simp only [hfind, Option.none_or]
                exact ih

/-- C6: the copybook resolver returns the first existing candidate in
search order (per directory: the literal name first, then — only for
extensionless names — each configured extension in declared order), and
the empty string when no candidate exists. -/
theorem findCopyBook_search_order (isFile : String → Bool)
    (searchPath : List String) (config : COBOLSettingsModel)
    (filename : String) (h : filename ≠ "") :
    findCopyBook isFile searchPath config filename =
      match (copyBookCandidates searchPath config.copybookexts
          filename).find? isFile with
      | some p => p
      | none => "" := by
  rw [findCopyBook, if_neg h]
  exact findCopyBookLoop_eq_find isFile filename config.copybookexts
    (filename.data.contains '.') rfl searchPath

/-- C6 witness: the spec scenario — extensionless `MYBOOK` with only
`lib/MYBOOK.cpy` on disk resolves to the `.cpy` path; an unresolvable name
yields the empty string. -/
theorem findCopyBook_search_order_witness :
    findCopyBook (fun p => decide (p = "lib/MYBOOK.cpy")) ["lib"]
      ⟨["cpy"], []⟩ "MYBOOK" = "lib/MYBOOK.cpy" ∧
    findCopyBook (fun _ => false) ["lib"] ⟨["cpy"], []⟩ "MYBOOK" = "" := by
  constructor
  · exact (findCopyBook_search_order (fun p => decide (p = "lib/MYBOOK.cpy"))
      ["lib"] ⟨["cpy"], []⟩ "MYBOOK" (by decide)).trans (by decide)
  · exact (findCopyBook_search_order (fun _ => false)
      ["lib"] ⟨["cpy"], []⟩ "MYBOOK" (by decide)).trans (by decide)

/-- C7 counterexample: a sentinel-prefixed line with an unrecognized tag is
*not* treated as a plain log line — the handler leaves the state (log
included) untouched, whereas plain-log treatment appends the line to the
log sink. -/
theorem unknown_tag_not_logged_cex :
    jsStartsWith "@@BOGUS" "@@" = true ∧
    (onMessage (fun _ => 0) (fun _ => 0) (fun _ => none)
      ⟨emptyGlobalCache, 0, "", false, []⟩ "@@BOGUS").log = [] ∧
    onMessage (fun _ => 0) (fun _ => 0) (fun _ => none)
      ⟨emptyGlobalCache, 0, "", false, []⟩ "@@BOGUS" ≠
      { (⟨emptyGlobalCache, 0, "", false, []⟩ : CoordState) with
          log := ["@@BOGUS"] } := by decide

/-- C7 amended: a line not beginning with the sentinel `@@` is forwarded
verbatim to the log sink with the rest of the state unchanged; a line
beginning with `@@` whose tag is unrecognized is *silently ignored* — no
fatal error, no cache change, and (contrary to the original claim) no log
output either. -/
theorem unknown_message_tolerance_amended (pi toBigInt : String → Int)
    (shortName : String → Option String) (st : CoordState) (msg : String) :
    (jsStartsWith msg "@@" = false →
      onMessage pi toBigInt shortName st msg =
        { st with log := st.log ++ [msg] }) ∧
    (jsStartsWith msg "@@" = true →
      jsStartsWith msg COBSCANNER_STATUS = false →
      jsStartsWith msg COBSCANNER_SENDEP = false →
      jsStartsWith msg COBSCANNER_SENDPRGID = false →
      jsStartsWith msg COBSCANNER_SENDCLASS = false →
      jsStartsWith msg COBSCANNER_SENDINTERFACE = false →
      jsStartsWith msg COBSCANNER_SENDENUM = false →
      jsStartsWith msg COBSCANNER_ADDFILE = false →
      jsStartsWith msg COBSCANNER_KNOWNCOPYBOOK = false →
      onMessage pi toBigInt shortName st msg = st) := by
  constructor
  · intro h
    simp [onMessage, h]
  · intro h h1 h2 h3 h4 h5 h6 h7 h8
    simp [onMessage, h, h1, h2, h3, h4, h5, h6, h7, h8]

/-- C7 witness: a plain line is forwarded verbatim to the log; an unknown
`@@` tag leaves the coordinator state untouched. -/
theorem unknown_message_tolerance_amended_witness :
    onMessage (fun _ => 0) (fun _ => 0) (fun _ => none)
      ⟨emptyGlobalCache, 0, "", false, []⟩ "hello" =
      { (⟨emptyGlobalCache, 0, "", false, []⟩ : CoordState) with
          log := ["hello"] } ∧
    onMessage (fun _ => 0) (fun _ => 0) (fun _ => none)
      ⟨emptyGlobalCache, 0, "", false, []⟩ "@@NOIDEA" =
      ⟨emptyGlobalCache, 0, "", false, []⟩ := by
  constructor
  · exact ((unknown_message_tolerance_amended (fun _ => 0) (fun _ => 0)
      (fun _ => none) ⟨emptyGlobalCache, 0, "", false, []⟩ "hello").1
      (by decide)).trans (by decide)
  · exact (unknown_message_tolerance_amended (fun _ => 0) (fun _ => 0)
      (fun _ => none) ⟨emptyGlobalCache, 0, "", false, []⟩ "@@NOIDEA").2
      (by decide) (by decide) (by decide) (by decide) (by decide) (by decide)
      (by decide) (by decide) (by decide)

theorem optOr_some_left {α : Type} (a : α) (b : Option α) :
    optOr (some a) b = some a := rfl

theorem optOr_none_left {α : Type} (b : Option α) : optOr none b = b := rfl

theorem optOr_assoc {α : Type} (a b c : Option α) :
    optOr (optOr a b) c = optOr a (optOr b c) := by
  cases a <;> rfl

theorem optOr_none_right {α : Type} (a : Option α) : optOr a none = a := by
  cases a <;> rfl

theorem getD_optOr_some {α : Type} (a : Option α) (i d : α) :
    (optOr a (some i)).getD d = a.getD i := by
  cases a <;> rfl

theorem findLastIdxFrom_eq_none_iff {α : Type} (p : α → Bool) (l : List α) :
    ∀ i, (findLastIdxFrom p i l = none ↔ ∀ x ∈ l, p x = false) := by
  induction l with
  | nil => intro i; simp [findLastIdxFrom]
  | cons x xs ih =>
      intro i
      simp only [findLastIdxFrom]
      cases hx : findLastIdxFrom p (i + 1) xs with
      | none =>
          simp only [optOr_none_left]
          by_cases hp : p x
          · simp only [hp, if_pos]
            constructor
            · intro h
              exact absurd h (by simp)
            · intro h
              exact absurd (h x (List.mem_cons_self _ _)) (by simp [hp])
          · simp only [hp, Bool.false_eq_true, not_false_iff, reduceIte]
            constructor
            · intro _ y hy
              rcases List.mem_cons.mp hy with rfl | hy'
              · exact Bool.eq_false_iff.mpr hp
              · exact ((ih (i + 1)).mp hx) y hy'
            · intro _
              trivial
      | some j =>
          simp only [optOr_some_left]
          constructor
          · intro h
            exact absurd h (by simp)
          · intro h
            have : findLastIdxFrom p (i + 1) xs = none :=
              (ih (i + 1)).mpr (fun y hy => h y (List.mem_cons_of_mem _ hy))
            rw [hx] at this
            exact absurd this (by simp)

theorem findLastIdxFrom_spec_some {α : Type} (p : α → Bool) (l : List α) :
    ∀ i j, findLastIdxFrom p i l = some j →
      ∃ x, i ≤ j ∧ l.get? (j - i) = some x ∧ p x = true ∧
        ∀ k y, j - i < k → l.get? k = some y → p y = false := by
  induction l with
  | nil => intro i j h; simp [findLastIdxFrom] at h
  | cons x xs ih =>
      intro i j h
      simp only [findLastIdxFrom] at h
      cases hx : findLastIdxFrom p (i + 1) xs with
      | some j' =>
          rw [hx, optOr_some_left] at h
          have hj : j' = j := Option.some.inj h
          subst hj
          rcases ih (i + 1) j' hx with ⟨y, hij, hget, hpy, hlater⟩
          refine ⟨y, by omega, ?_, hpy, ?_⟩
          · have : j' - i = (j' - (i + 1)) + 1 := by omega
            rw [this]
            simpa using hget
          · intro k z hk hgz
            cases k with
            | zero => omega
            | succ k' =>
                have : xs.get? k' = some z := by simpa using hgz
                exact hlater k' z (by omega) this
      | none =>
          rw [hx, optOr_none_left] at h
          by_cases hp : p x
          · rw [if_pos hp] at h
            have hj : i = j := Option.some.inj h
            subst hj
            refine ⟨x, le_refl _, by simp, hp, ?_⟩
            intro k z hk hgz
            cases k with
            | zero => omega
            | succ k' =>
                have hz : xs.get? k' = some z := by simpa using hgz
                exact ((findLastIdxFrom_eq_none_iff p xs (i + 1)).mp hx) z
                  (List.get?_mem hz)
          · rw [if_neg hp] at h
            exact absurd h (by simp)

theorem findLastIdxFrom_spec_last {α : Type} (p : α → Bool) (l : List α) :
    ∀ i j x, l.get? j = some x → p x = true →
      (∀ k y, j < k → l.get? k = some y → p y = false) →
      findLastIdxFrom p i l = some (j + i) := by
  induction l with
  | nil => intro i j x h; simp at h
  | cons z zs ih =>
      intro i j x hget hp hlater
      simp only [findLastIdxFrom]
      cases j with
      | zero =>
          have hz : z = x := by simpa using hget
          have hnone : findLastIdxFrom p (i + 1) zs = none := by
            rw [findLastIdxFrom_eq_none_iff]
            intro y hy
            rcases List.mem_iff_get?.mp hy with ⟨n, hn⟩
            exact hlater (n + 1) y (by omega) (by simpa using hn)
          rw [hnone, optOr_none_left, hz, if_pos hp]
          simp
      | succ j' =>
          have hz : zs.get? j' = some x := by simpa using hget
          have hlater' : ∀ k y, j' < k → zs.get? k = some y → p y = false := by
            intro k y hk hky
            exact hlater (k + 1) y (by omega) (by simpa using hky)
          rw [ih (i + 1) j' x hz hp hlater', optOr_some_left]
          congr 1
          omega

theorem countP_pos_of_get? {α : Type} (p : α → Bool) {l : List α} {j : Nat}
    {y : α} (h : l.get? j = some y) (hp : p y = true) : 1 ≤ l.countP p :=
  List.countP_pos_iff.mpr ⟨y, List.get?_mem h, hp⟩

theorem two_le_countP {α : Type} (p : α → Bool) :
    ∀ (l : List α) (i j : Nat) (x y : α), i < j → l.get? i = some x →
      l.get? j = some y → p x = true → p y = true → 2 ≤ l.countP p := by
  intro l
  induction l with
  | nil => intro i j x y _ h; simp at h
  | cons z zs ih =>
      intro i j x y hij hi hj hx hy
      cases j with
      | zero => omega
      | succ j' =>
          have hjz : zs.get? j' = some y := by simpa using hj
          cases i with
          | zero =>
              have hxz : z = x := by simpa using hi
              rw [List.countP_cons]
              have h1 : 1 ≤ zs.countP p := countP_pos_of_get? p hjz hy
              rw [if_pos (by rw [hxz]; exact hx)]
              omega
          | succ i' =>
              have hiz : zs.get? i' = some x := by simpa using hi
              have h2 := ih i' j' x y (by omega) hiz hjz hx hy
              rw [List.countP_cons]
              by_cases hz : p z
              · rw [if_pos hz]; omega
              · rw [if_neg hz]; omega

theorem countP_one_unique {α : Type} (p : α → Bool) {l : List α}
    (h1 : l.countP p = 1) {i j : Nat} {x y : α} (hi : l.get? i = some x)
    (hx : p x = true) (hj : l.get? j = some y) (hy : p y = true) : j = i := by
  rcases lt_trichotomy i j with h | h | h
  · exact absurd (two_le_countP p l i j x y h hi hj hx hy) (by omega)
  · omega
  · exact absurd (two_le_countP p l j i y x h hj hi hy hx) (by omega)

theorem scanLoop_spec (f : String) (l : List COBOLFileSymbol) :
    ∀ i c last nfs, scanLoop f l i (c, last, nfs) =
      (c + l.countP (matchesFile f),
       (findLastIdxFrom (matchesFile f) i l).getD last,
       optOr (findLastIdxFrom (matchesNonSentinel f) i l) nfs) := by
  induction l with
  | nil =>
      intro i c last nfs
      simp [scanLoop, findLastIdxFrom, optOr]
  | cons x xs ih =>
      intro i c last nfs
      simp only [scanLoop]
      by_cases hx : x.filename = f
      · rw [if_pos hx]
        have hmx : matchesFile f x = true := by simp [matchesFile, hx]
        by_cases hl : x.lnum = 1
        · rw [if_neg (show ¬ x.lnum ≠ 1 by simp [hl])]
          rw [ih (i + 1) (c + 1) i nfs]
          have hnx : matchesNonSentinel f x = false := by
            simp [matchesNonSentinel, hl]
          simp only [List.countP_cons, hmx, if_pos, findLastIdxFrom, hnx,
            Bool.false_eq_true, not_false_iff, reduceIte, optOr_none_right]
          refine congrArg₂ Prod.mk (by omega) (congrArg₂ Prod.mk ?_ rfl)
          rw [getD_optOr_some]
        · rw [if_pos hl]
          rw [ih (i + 1) (c + 1) i (some i)]
          have hnx : matchesNonSentinel f x = true := by
            simp [matchesNonSentinel, hx, hl]
          simp only [List.countP_cons, hmx, if_pos, findLastIdxFrom, hnx,
            optOr_assoc, optOr_some_left]
          refine congrArg₂ Prod.mk (by omega) (congrArg₂ Prod.mk ?_ rfl)
          rw [getD_optOr_some]
      · rw [if_neg hx]
        have hmx : matchesFile f x = false := by simp [matchesFile, hx]
        have hnx : matchesNonSentinel f x = false := by
          simp [matchesNonSentinel, hx]
        rw [ih (i + 1) c last nfs]
        simp only [List.countP_cons, hmx, hnx, Bool.false_eq_true,
          not_false_iff, reduceIte, findLastIdxFrom, optOr_none_right,
          Nat.add_zero]

/-- C4: case semantics of `addSymbolToCache` on the bucket selected by the
case-folded name: no entry for the file ⇒ append a fresh FileSymbol and
set the dirty flag; exactly one entry ⇒ update its line in place; more
than one ⇒ update only the last entry whose line is not the sentinel `1`,
and if every entry for the file carries line `1` the cache is returned
unchanged (dirty flag untouched). -/
theorem addSymbolToCache_case_semantics (symbolsCache : SymMap)
    (isDirty : Bool) (srcfilename symbolUnchanged : String) (lineNumber : Int)
    (symbolList : List COBOLFileSymbol)
    (hget : mapGet symbolsCache (jsToLower symbolUnchanged) = some symbolList) :
    ((∀ x ∈ symbolList, x.filename ≠ srcfilename) →
      addSymbolToCache srcfilename symbolUnchanged lineNumber symbolsCache
          isDirty =
        (mapSet symbolsCache (jsToLower symbolUnchanged)
          (symbolList ++ [⟨srcfilename, lineNumber⟩]), true)) ∧
    (symbolList.countP (matchesFile srcfilename) = 1 →
      ∀ i x, symbolList.get? i = some x → x.filename = srcfilename →
      addSymbolToCache srcfilename symbolUnchanged lineNumber symbolsCache
          isDirty =
        (mapSet symbolsCache (jsToLower symbolUnchanged)
          (setLnum symbolList i lineNumber), true)) ∧
    (2 ≤ symbolList.countP (matchesFile srcfilename) →
      ∀ i x, symbolList.get? i = some x → x.filename = srcfilename →
      x.lnum ≠ 1 →
      (∀ k y, i < k → symbolList.get? k = some y →
        y.filename = srcfilename → y.lnum = 1) →
      addSymbolToCache srcfilename symbolUnchanged lineNumber symbolsCache
          isDirty =
        (mapSet symbolsCache (jsToLower symbolUnchanged)
          (setLnum symbolList i lineNumber), true)) ∧
    (2 ≤ symbolList.countP (matchesFile srcfilename) →
      (∀ x ∈ symbolList, x.filename = srcfilename → x.lnum = 1) →
      addSymbolToCache srcfilename symbolUnchanged lineNumber symbolsCache
          isDirty = (symbolsCache, isDirty)) := by
  have hscan := scanLoop_spec srcfilename symbolList 0 0 0 none
  refine ⟨?_, ?_, ?_, ?_⟩
  · intro hall
    have hc : symbolList.countP (matchesFile srcfilename) = 0 :=
      List.countP_eq_zero.mpr (fun a ha => by
        simp only [matchesFile, decide_eq_true_eq]
        exact hall a ha)
    simp [addSymbolToCache, hget, hscan, hc]
  · intro hc1 i x hgi hxf
    have hfx : matchesFile srcfilename x = true := by
      simp [matchesFile, hxf]
    have hlater : ∀ k y, i < k → symbolList.get? k = some y →
        matchesFile srcfilename y = false := by
      intro k y hik hk
      by_contra hny
      have hky : matchesFile srcfilename y = true :=
        Bool.not_eq_false _ ▸ (eq_true_of_ne_false hny)
      have := countP_one_unique (matchesFile srcfilename) hc1 hgi hfx hk hky
      omega
    have hfl := findLastIdxFrom_spec_last (matchesFile srcfilename)
      symbolList 0 i x hgi hfx hlater
    simp [addSymbolToCache, hget, hscan, hc1, hfl]
  · intro hc2 i x hgi hxf hxl hlater
    have hc0 : ¬ symbolList.countP (matchesFile srcfilename) = 0 := by omega
    have hc1 : ¬ symbolList.countP (matchesFile srcfilename) = 1 := by omega
    have hpx : matchesNonSentinel srcfilename x = true := by
      simp [matchesNonSentinel, hxf, hxl]
    have hlater' : ∀ k y, i < k → symbolList.get? k = some y →
        matchesNonSentinel srcfilename y = false := by
      intro k y hik hky
      by_cases hyf : y.filename = srcfilename
      · have := hlater k y hik hky hyf
        simp [matchesNonSentinel, this]
      · simp [matchesNonSentinel, hyf]
    have hnf := findLastIdxFrom_spec_last (matchesNonSentinel srcfilename)
      symbolList 0 i x hgi hpx hlater'
    simp [addSymbolToCache, hget, hscan, hc0, hc1, hnf, optOr_none_right]
  · intro hc2 hall
    have hc0 : ¬ symbolList.countP (matchesFile srcfilename) = 0 := by omega
    have hc1 : ¬ symbolList.countP (matchesFile srcfilename) = 1 := by omega
    have hnone : findLastIdxFrom (matchesNonSentinel srcfilename) 0
        symbolList = none := by
      refine (findLastIdxFrom_eq_none_iff _ _ 0).mpr (fun y hy => ?_)
      by_cases hyf : y.filename = srcfilename
      · have := hall y hy hyf
        simp [matchesNonSentinel, this]
      · simp [matchesNonSentinel, hyf]
    simp [addSymbolToCache, hget, hscan, hc0, hc1, hnone, optOr_none_right]

/-- C4 witness at concrete buckets: a fresh filename is appended with the
dirty flag set; a defensive bucket holding two sentinel entries for the
file is left unchanged with the dirty flag untouched. -/
theorem addSymbolToCache_case_semantics_witness :
    addSymbolToCache "a.cbl" "K" 7 [("k", [⟨"b.cbl", 3⟩])] false =
      ([("k", [⟨"b.cbl", 3⟩, ⟨"a.cbl", 7⟩])], true) ∧
    addSymbolToCache "a.cbl" "K" 7 [("k", [⟨"a.cbl", 1⟩, ⟨"a.cbl", 1⟩])]
        false =
      ([("k", [⟨"a.cbl", 1⟩, ⟨"a.cbl", 1⟩])], false) := by
  constructor
  · exact ((addSymbolToCache_case_semantics [("k", [⟨"b.cbl", 3⟩])] false
      "a.cbl" "K" 7 [⟨"b.cbl", 3⟩] (by decide)).1 (by decide)).trans
      (by decide)
  · exact ((addSymbolToCache_case_semantics
      [("k", [⟨"a.cbl", 1⟩, ⟨"a.cbl", 1⟩])] false "a.cbl" "K" 7
      [⟨"a.cbl", 1⟩, ⟨"a.cbl", 1⟩] (by decide)).2.2.2 (by decide)
      (by decide)).trans (by decide)

theorem filenamesOf_setLnum (l : List COBOLFileSymbol) :
    ∀ i a, filenamesOf (setLnum l i a) = filenamesOf l := by
  induction l with
  | nil => intro i a; rfl
  | cons x xs ih =>
      intro i a
      cases i with
      | zero => simp [setLnum, filenamesOf]
      | succ i' =>
          have hih := ih i' a
          simp only [filenamesOf] at hih
          simp [setLnum, filenamesOf, hih]

theorem setLnum_ne_nil {l : List COBOLFileSymbol} (h : l ≠ []) (i : Nat)
    (a : Int) : setLnum l i a ≠ [] := by
  intro hnil
  have := filenamesOf_setLnum l i a
  rw [hnil] at this
  have hfl : filenamesOf l = [] := this.symm
  exact h (List.map_eq_nil_iff.mp hfl)

theorem MapInvH_congr {h h' : String → List String} {m : SymMap}
    (heq : ∀ k, h k = h' k) (hm : MapInvH h m) : MapInvH h' m := by
  obtain ⟨hnd, hb⟩ := hm
  refine ⟨hnd, fun kv hkv => ?_⟩
  rcases hb kv hkv with ⟨h1, h2, h3⟩
  exact ⟨h1, h2, heq kv.1 ▸ h3⟩

theorem MapInvH_mono {h h' : String → List String} {m : SymMap}
    (hsub : ∀ k, List.Sublist (h k) (h' k)) (hm : MapInvH h m) :
    MapInvH h' m := by
  obtain ⟨hnd, hb⟩ := hm
  refine ⟨hnd, fun kv hkv => ?_⟩
  rcases hb kv hkv with ⟨h1, h2, h3⟩
  exact ⟨h1, h2, h3.trans (hsub kv.1)⟩

theorem MapInvH_mapSet (h : String → List String) (m : SymMap) (key : String)
    (newl : List COBOLFileSymbol) (g : List String) (hm : MapInvH h m)
    (hne : newl ≠ []) (hnodup : (filenamesOf newl).Nodup)
    (hsub : List.Sublist (filenamesOf newl) (h key ++ g)) :
    MapInvH (fun k => if key = k then h k ++ g else h k) (mapSet m key newl) := by
  obtain ⟨hnd, hb⟩ := hm
  refine ⟨keys_nodup_mapSet hnd, ?_⟩
  intro kv hkv
  rcases mem_mapSet hkv with rfl | hkv'
  · refine ⟨hne, hnodup, ?_⟩
    dsimp only
    rw [if_pos rfl]
    exact hsub
  · rcases hb kv hkv' with ⟨h1, h2, h3⟩
    refine ⟨h1, h2, ?_⟩
    dsimp only
    by_cases hk : key = kv.1
    · rw [if_pos hk]
      exact h3.trans (List.sublist_append_left _ _)
    · rw [if_neg hk]
      exact h3

theorem MapInvH_addSymbolToCache (h : String → List String) (m : SymMap)
    (f n : String) (line : Int) (d : Bool) (hm : MapInvH h m) :
    MapInvH (fun k => if jsToLower n = k then h k ++ [f] else h k)
      (addSymbolToCache f n line m d).1 := by
  cases hget : mapGet m (jsToLower n) with
  | none =>
      have hres : (addSymbolToCache f n line m d).1 =
          mapSet m (jsToLower n) [⟨f, line⟩] := by
        simp [addSymbolToCache, hget]
      rw [hres]
      refine MapInvH_mapSet h m (jsToLower n) [⟨f, line⟩] [f] hm (by simp)
        (by simp [filenamesOf]) ?_
      show List.Sublist [f] (h (jsToLower n) ++ [f])
      exact List.sublist_append_right _ _
  | some l =>
      rcases hm.2 (jsToLower n, l) (mapGet_mem hget) with ⟨hlne, hlnodup, hlsub⟩
      have hscan := scanLoop_spec f l 0 0 0 none
      by_cases hc0 : l.countP (matchesFile f) = 0
      · have hres : (addSymbolToCache f n line m d).1 =
            mapSet m (jsToLower n) (l ++ [⟨f, line⟩]) := by
          simp [addSymbolToCache, hget, hscan, hc0]
        rw [hres]
        have hnotin : f ∉ filenamesOf l := by
          intro hmem
          rcases List.mem_map.mp hmem with ⟨y, hy, hyf⟩
          have hpy := List.countP_eq_zero.mp hc0 y hy
          simp [matchesFile, hyf] at hpy
        refine MapInvH_mapSet h m (jsToLower n) (l ++ [⟨f, line⟩]) [f] hm
          (by simp) ?_ ?_
        · show (filenamesOf (l ++ [⟨f, line⟩])).Nodup
          have : filenamesOf (l ++ [⟨f, line⟩]) = filenamesOf l ++ [f] := by
            simp [filenamesOf]
          rw [this]
          rw [List.nodup_append]
          refine ⟨hlnodup, List.nodup_singleton f, ?_⟩
          intro a ha hb
          rw [List.mem_singleton.mp hb] at ha
          exact hnotin ha
        · show List.Sublist (filenamesOf (l ++ [⟨f, line⟩]))
            (h (jsToLower n) ++ [f])
          have : filenamesOf (l ++ [⟨f, line⟩]) = filenamesOf l ++ [f] := by
            simp [filenamesOf]
          rw [this]
          exact hlsub.append (List.Sublist.refl [f])
      · by_cases hc1 : l.countP (matchesFile f) = 1
        · have hres : (addSymbolToCache f n line m d).1 =
              mapSet m (jsToLower n)
                (setLnum l ((findLastIdxFrom (matchesFile f) 0 l).getD 0)
                  line) := by
            simp [addSymbolToCache, hget, hscan, hc0, hc1]
          rw [hres]
          refine MapInvH_mapSet h m (jsToLower n) _ [f] hm
            (setLnum_ne_nil hlne _ _) ?_ ?_
          · rw [filenamesOf_setLnum]
            exact hlnodup
          · rw [filenamesOf_setLnum]
            exact hlsub.trans (List.sublist_append_left _ _)
        · cases hnf : findLastIdxFrom (matchesNonSentinel f) 0 l with
          | some j =>
              have hres : (addSymbolToCache f n line m d).1 =
                  mapSet m (jsToLower n) (setLnum l j line) := by
                simp [addSymbolToCache, hget, hscan, hc0, hc1, hnf,
                  optOr_none_right]
              rw [hres]
              refine MapInvH_mapSet h m (jsToLower n) _ [f] hm
                (setLnum_ne_nil hlne _ _) ?_ ?_
              · rw [filenamesOf_setLnum]
                exact hlnodup
              · rw [filenamesOf_setLnum]
                exact hlsub.trans (List.sublist_append_left _ _)
          | none =>
              have hres : (addSymbolToCache f n line m d).1 = m := by
                simp [addSymbolToCache, hget, hscan, hc0, hc1, hnf,
                  optOr_none_right]
              rw [hres]
              refine MapInvH_mono (fun k => ?_) hm
              by_cases hk : jsToLower n = k
              · rw [if_pos hk]
                exact List.sublist_append_left _ _
              · rw [if_neg hk]

theorem MapInvH_removeAllProgramSymbols (h : String → List String)
    (f : String) (m : SymMap) (hm : MapInvH h m) :
    MapInvH h (removeAllProgramSymbols f m) := by
  obtain ⟨hnd, hb⟩ := hm
  refine ⟨hnd.sublist (keys_sublist_removeAllProgramSymbols f m), ?_⟩
  intro kv hkv
  rcases mem_removeAllProgramSymbols hkv with ⟨l0, hmem, hfil, hd⟩
  rcases hb (kv.1, l0) hmem with ⟨hl0ne, hnodup, hsub⟩
  have hne : kv.2 ≠ [] := by
    rcases hd with h | h
    · exact absurd h hl0ne
    · exact h
  refine ⟨hne, ?_, ?_⟩
  · rw [hfil]
    have hs : List.Sublist
        (filenamesOf (l0.filter (fun s => s.filename ≠ f))) (filenamesOf l0) :=
      (List.filter_sublist l0).map _
    exact hnodup.sublist hs
  · rw [hfil]
    have hs : List.Sublist
        (filenamesOf (l0.filter (fun s => s.filename ≠ f))) (filenamesOf l0) :=
      (List.filter_sublist l0).map _
    exact hs.trans hsub

theorem runCacheOps_inv :
    ∀ (ops : List CacheOp) (s : GlobalSymbolCache)
      (h1 h2 h3 h4 h5 : String → List String),
      CacheInvH h1 h2 h3 h4 h5 s →
      CacheInvH (fun k => h1 k ++ insCallable ops k)
        (fun k => h2 k ++ insEntryPoints ops k)
        (fun k => h3 k ++ insClassMap TypeCategory.ClassId ops k)
        (fun k => h4 k ++ insClassMap TypeCategory.InterfaceId ops k)
        (fun k => h5 k ++ insClassMap TypeCategory.EnumId ops k)
        (runCacheOps ops s) := by
  intro ops
  induction ops with
  | nil =>
      intro s h1 h2 h3 h4 h5 hs
      obtain ⟨a, b, c, d, e⟩ := hs
      exact ⟨MapInvH_congr (fun k => by simp [insCallable]) a,
        MapInvH_congr (fun k => by simp [insEntryPoints]) b,
        MapInvH_congr (fun k => by simp [insClassMap]) c,
        MapInvH_congr (fun k => by simp [insClassMap]) d,
        MapInvH_congr (fun k => by simp [insClassMap]) e⟩
  | cons op rest ih =>
      intro s h1 h2 h3 h4 h5 hs
      obtain ⟨a, b, c, d, e⟩ := hs
      cases op with
      | addSymbolOp f n lnum =>
          have a' := MapInvH_addSymbolToCache h1 s.callableSymbols
            (getFilenameWithoutPath f) n lnum s.isDirty a
          obtain ⟨ra, rb, rc, rd, re⟩ :=
            ih (applyCacheOp s (CacheOp.addSymbolOp f n lnum)) _ h2 h3 h4 h5
              ⟨a', b, c, d, e⟩
          refine ⟨?_, ?_, ?_, ?_, ?_⟩
          · refine MapInvH_congr (fun k => ?_) ra
            by_cases hk : jsToLower n = k
            · simp [insCallable, hk, List.append_assoc]
            · simp [insCallable, hk]
          · exact MapInvH_congr (fun k => by simp [insEntryPoints]) rb
          · exact MapInvH_congr (fun k => by simp [insClassMap]) rc
          · exact MapInvH_congr (fun k => by simp [insClassMap]) rd
          · exact MapInvH_congr (fun k => by simp [insClassMap]) re
      | addEntryPointOp f n lnum =>
          have b' := MapInvH_addSymbolToCache h2 s.entryPoints
            (getFilenameWithoutPath f) n lnum s.isDirty b
          obtain ⟨ra, rb, rc, rd, re⟩ :=
            ih (applyCacheOp s (CacheOp.addEntryPointOp f n lnum)) h1 _ h3 h4 h5
              ⟨a, b', c, d, e⟩
          refine ⟨?_, ?_, ?_, ?_, ?_⟩
          · exact MapInvH_congr (fun k => by simp [insCallable]) ra
          · refine MapInvH_congr (fun k => ?_) rb
            by_cases hk : jsToLower n = k
            · simp [insEntryPoints, hk, List.append_assoc]
            · simp [insEntryPoints, hk]
          · exact MapInvH_congr (fun k => by simp [insClassMap]) rc
          · exact MapInvH_congr (fun k => by simp [insClassMap]) rd
          · exact MapInvH_congr (fun k => by simp [insClassMap]) re
      | addClassOp f n lnum cat =>
          cases cat with
          | ClassId =>
              have c' := MapInvH_addSymbolToCache h3 s.types
                (getFilenameWithoutPath f) n lnum s.isDirty c
              obtain ⟨ra, rb, rc, rd, re⟩ :=
                ih (applyCacheOp s
                  (CacheOp.addClassOp f n lnum TypeCategory.ClassId))
                  h1 h2 _ h4 h5 ⟨a, b, c', d, e⟩
              refine ⟨?_, ?_, ?_, ?_, ?_⟩
              · exact MapInvH_congr (fun k => by simp [insCallable]) ra
              · exact MapInvH_congr (fun k => by simp [insEntryPoints]) rb
              · refine MapInvH_congr (fun k => ?_) rc
                by_cases hk : jsToLower n = k
                · simp [insClassMap, hk, List.append_assoc]
                · simp [insClassMap, hk]
              · exact MapInvH_congr (fun k => by simp [insClassMap]) rd
              · exact MapInvH_congr (fun k => by simp [insClassMap]) re
          | InterfaceId =>
              have d' := MapInvH_addSymbolToCache h4 s.interfaces
                (getFilenameWithoutPath f) n lnum s.isDirty d
              obtain ⟨ra, rb, rc, rd, re⟩ :=
                ih (applyCacheOp s
                  (CacheOp.addClassOp f n lnum TypeCategory.InterfaceId))
                  h1 h2 h3 _ h5 ⟨a, b, c, d', e⟩
              refine ⟨?_, ?_, ?_, ?_, ?_⟩
              · exact MapInvH_congr (fun k => by simp [insCallable]) ra
              · exact MapInvH_congr (fun k => by simp [insEntryPoints]) rb
              · exact MapInvH_congr (fun k => by simp [insClassMap]) rc
              · refine MapInvH_congr (fun k => ?_) rd
                by_cases hk : jsToLower n = k
                · simp [insClassMap, hk, List.append_assoc]
                · simp [insClassMap, hk]
              · exact MapInvH_congr (fun k => by simp [insClassMap]) re
          | EnumId =>
              have e' := MapInvH_addSymbolToCache h5 s.enums
                (getFilenameWithoutPath f) n lnum s.isDirty e
              obtain ⟨ra, rb, rc, rd, re⟩ :=
                ih (applyCacheOp s
                  (CacheOp.addClassOp f n lnum TypeCategory.EnumId))
                  h1 h2 h3 h4 _ ⟨a, b, c, d, e'⟩
              refine ⟨?_, ?_, ?_, ?_, ?_⟩
              · exact MapInvH_congr (fun k => by simp [insCallable]) ra
              · exact MapInvH_congr (fun k => by simp [insEntryPoints]) rb
              · exact MapInvH_congr (fun k => by simp [insClassMap]) rc
              · exact MapInvH_congr (fun k => by simp [insClassMap]) rd
              · refine MapInvH_congr (fun k => ?_) re
                by_cases hk : jsToLower n = k
                · simp [insClassMap, hk, List.append_assoc]
                · simp [insClassMap, hk]
      | removeAllProgramsOp f =>
          have a' := MapInvH_removeAllProgramSymbols h1
            (getFilenameWithoutPath f) s.callableSymbols a
          obtain ⟨ra, rb, rc, rd, re⟩ :=
            ih (applyCacheOp s (CacheOp.removeAllProgramsOp f)) h1 h2 h3 h4 h5
              ⟨a', b, c, d, e⟩
          refine ⟨?_, ?_, ?_, ?_, ?_⟩
          · exact MapInvH_congr (fun k => by simp [insCallable]) ra
          · exact MapInvH_congr (fun k => by simp [insEntryPoints]) rb
          · exact MapInvH_congr (fun k => by simp [insClassMap]) rc
          · exact MapInvH_congr (fun k => by simp [insClassMap]) rd
          · exact MapInvH_congr (fun k => by simp [insClassMap]) re
      | removeAllProgramEntryPointsOp f =>
          have b' := MapInvH_removeAllProgramSymbols h2
            (getFilenameWithoutPath f) s.entryPoints b
          obtain ⟨ra, rb, rc, rd, re⟩ :=
            ih (applyCacheOp s (CacheOp.removeAllProgramEntryPointsOp f))
              h1 h2 h3 h4 h5 ⟨a, b', c, d, e⟩
          refine ⟨?_, ?_, ?_, ?_, ?_⟩
          · exact MapInvH_congr (fun k => by simp [insCallable]) ra
          · exact MapInvH_congr (fun k => by simp [insEntryPoints]) rb
          · exact MapInvH_congr (fun k => by simp [insClassMap]) rc
          · exact MapInvH_congr (fun k => by simp [insClassMap]) rd
          · exact MapInvH_congr (fun k => by simp [insClassMap]) re
      | removeAllTypesOp f =>
          have c' := MapInvH_removeAllProgramSymbols h3
            (getFilenameWithoutPath f) s.types c
          have d' := MapInvH_removeAllProgramSymbols h4
            (getFilenameWithoutPath f) s.interfaces d
          have e' := MapInvH_removeAllProgramSymbols h5
            (getFilenameWithoutPath f) s.enums e
          obtain ⟨ra, rb, rc, rd, re⟩ :=
            ih (applyCacheOp s (CacheOp.removeAllTypesOp f)) h1 h2 h3 h4 h5
              ⟨a, b, c', d', e'⟩
          refine ⟨?_, ?_, ?_, ?_, ?_⟩
          · exact MapInvH_congr (fun k => by simp [insCallable]) ra
          · exact MapInvH_congr (fun k => by simp [insEntryPoints]) rb
          · exact MapInvH_congr (fun k => by simp [insClassMap]) rc
          · exact MapInvH_congr (fun k => by simp [insClassMap]) rd
          · exact MapInvH_congr (fun k => by simp [insClassMap]) re

theorem MapInvH_nil (h : String → List String) : MapInvH h ([] : SymMap) := by
  refine ⟨by simp, ?_⟩
  intro kv hkv
  simp at hkv

/-- C1: merge uniqueness — after any sequence of
`addSymbol`/`addEntryPoint`/`addClass` (all via `addSymbolToCache`) and
public removals (via `removeAllProgramSymbols`) applied to the initially
empty cache, every bucket of each of the five mappings holds at most one
FileSymbol per distinct filename, and the bucket's filenames appear in
insertion order (a subsequence of the chronological insertions into that
bucket). -/
theorem merge_uniqueness_invariant (ops : List CacheOp) (k : String)
    (l : List COBOLFileSymbol) :
    (mapGet (runCacheOps ops emptyGlobalCache).callableSymbols k = some l →
      (filenamesOf l).Nodup ∧
        List.Sublist (filenamesOf l) (insCallable ops k)) ∧
    (mapGet (runCacheOps ops emptyGlobalCache).entryPoints k = some l →
      (filenamesOf l).Nodup ∧
        List.Sublist (filenamesOf l) (insEntryPoints ops k)) ∧
    (mapGet (runCacheOps ops emptyGlobalCache).types k = some l →
      (filenamesOf l).Nodup ∧
        List.Sublist (filenamesOf l)
          (insClassMap TypeCategory.ClassId ops k)) ∧
    (mapGet (runCacheOps ops emptyGlobalCache).interfaces k = some l →
      (filenamesOf l).Nodup ∧
        List.Sublist (filenamesOf l)
          (insClassMap TypeCategory.InterfaceId ops k)) ∧
    (mapGet (runCacheOps ops emptyGlobalCache).enums k = some l →
      (filenamesOf l).Nodup ∧
        List.Sublist (filenamesOf l)
          (insClassMap TypeCategory.EnumId ops k)) := by
  obtain ⟨ra, rb, rc, rd, re⟩ :=
    runCacheOps_inv ops emptyGlobalCache (fun _ => []) (fun _ => [])
      (fun _ => []) (fun _ => []) (fun _ => [])
      ⟨MapInvH_nil _, MapInvH_nil _, MapInvH_nil _, MapInvH_nil _,
        MapInvH_nil _⟩
  refine ⟨?_, ?_, ?_, ?_, ?_⟩
  · intro hget
    rcases ra.2 (k, l) (mapGet_mem hget) with ⟨_, hnodup, hsub⟩
    exact ⟨hnodup, by simpa using hsub⟩
  · intro hget
    rcases rb.2 (k, l) (mapGet_mem hget) with ⟨_, hnodup, hsub⟩
    exact ⟨hnodup, by simpa using hsub⟩
  · intro hget
    rcases rc.2 (k, l) (mapGet_mem hget) with ⟨_, hnodup, hsub⟩
    exact ⟨hnodup, by simpa using hsub⟩
  · intro hget
    rcases rd.2 (k, l) (mapGet_mem hget) with ⟨_, hnodup, hsub⟩
    exact ⟨hnodup, by simpa using hsub⟩
  · intro hget
    rcases re.2 (k, l) (mapGet_mem hget) with ⟨_, hnodup, hsub⟩
    exact ⟨hnodup, by simpa using hsub⟩

/-- C1 witness: three adds (two files, one repeated) on the empty cache
yield the bucket `[a.cbl@12, b.cbl@9]` — one entry per filename, in
insertion order relative to the chronological insertions. -/
theorem merge_uniqueness_invariant_witness :
    (filenamesOf [⟨"a.cbl", 12⟩, ⟨"b.cbl", 9⟩]).Nodup ∧
    List.Sublist (filenamesOf [⟨"a.cbl", 12⟩, ⟨"b.cbl", 9⟩])
      (insCallable [CacheOp.addSymbolOp "d/a.cbl" "Alpha" 5,
        CacheOp.addSymbolOp "d/b.cbl" "Alpha" 9,
        CacheOp.addSymbolOp "d/a.cbl" "Alpha" 12] "alpha") :=
  (merge_uniqueness_invariant
    [CacheOp.addSymbolOp "d/a.cbl" "Alpha" 5,
      CacheOp.addSymbolOp "d/b.cbl" "Alpha" 9,
      CacheOp.addSymbolOp "d/a.cbl" "Alpha" 12] "alpha"
    [⟨"a.cbl", 12⟩, ⟨"b.cbl", 9⟩]).1 (by decide)

/-- C5: `removeAllProgramSymbols` leaves each nonempty bucket equal to its
prior entries whose filename differs from the removed file (in order),
deleting the key outright when that filtered list is empty — the
nonemptiness hypothesis reflects the JS guard on line 27, which leaves a
bucket untouched when the filter dropped nothing; buckets bound to empty
lists never arise, since after any sequence of public add/remove
operations from the empty cache no mapping binds a key to an empty list. -/
theorem empty_bucket_collection (m : SymMap) (f k : String)
    (hnd : (m.map Prod.fst).Nodup) (l : List COBOLFileSymbol)
    (ops : List CacheOp) (l' : List COBOLFileSymbol) :
    (mapGet m k = some l → l ≠ [] →
      mapGet (removeAllProgramSymbols f m) k =
        (if (l.filter (fun s => s.filename ≠ f)).isEmpty then none
         else some (l.filter (fun s => s.filename ≠ f)))) ∧
    (mapGet m k = none → mapGet (removeAllProgramSymbols f m) k = none) ∧
    (mapGet (runCacheOps ops emptyGlobalCache).callableSymbols k = some l' →
      l' ≠ []) ∧
    (mapGet (runCacheOps ops emptyGlobalCache).entryPoints k = some l' →
      l' ≠ []) ∧
    (mapGet (runCacheOps ops emptyGlobalCache).types k = some l' →
      l' ≠ []) ∧
    (mapGet (runCacheOps ops emptyGlobalCache).interfaces k = some l' →
      l' ≠ []) ∧
    (mapGet (runCacheOps ops emptyGlobalCache).enums k = some l' →
      l' ≠ []) := by
  obtain ⟨ra, rb, rc, rd, re⟩ :=
    runCacheOps_inv ops emptyGlobalCache (fun _ => []) (fun _ => [])
      (fun _ => []) (fun _ => []) (fun _ => [])
      ⟨MapInvH_nil _, MapInvH_nil _, MapInvH_nil _, MapInvH_nil _,
        MapInvH_nil _⟩
  refine ⟨?_, ?_, ?_, ?_, ?_, ?_, ?_⟩
  · intro hget hne
    exact mapGet_removeAllProgramSymbols_some hnd hget hne
  · intro hget
    exact mapGet_removeAllProgramSymbols_none hget
  · intro hget
    exact (ra.2 (k, l') (mapGet_mem hget)).1
  · intro hget
    exact (rb.2 (k, l') (mapGet_mem hget)).1
  · intro hget
    exact (rc.2 (k, l') (mapGet_mem hget)).1
  · intro hget
    exact (rd.2 (k, l') (mapGet_mem hget)).1
  · intro hget
    exact (re.2 (k, l') (mapGet_mem hget)).1

/-- C5 witness: removing the only file of a bucket deletes the key (lookup
turns to `none`); a bucket reachable from the empty cache is nonempty. -/
theorem empty_bucket_collection_witness :
    mapGet (removeAllProgramSymbols "a.cbl" [("k1", [⟨"a.cbl", 1⟩])]) "k1" =
      none ∧
    ([⟨"x.cbl", 3⟩] : List COBOLFileSymbol) ≠ [] := by
  constructor
  · exact ((empty_bucket_collection [("k1", [⟨"a.cbl", 1⟩])] "a.cbl" "k1"
      (by decide) [⟨"a.cbl", 1⟩] [] []).1 (by decide) (by decide)).trans
      (by decide)
  · exact (empty_bucket_collection [] "x.cbl" "n" (by decide) []
      [CacheOp.addSymbolOp "x.cbl" "N" 3] [⟨"x.cbl", 3⟩]).2.2.1 (by decide)
